import Mathlib

/-!
# Verification of the hcg-blog-generator content pipeline

Shallow embedding of the content ingestion and permalink-resolution pipeline of
`src/content/processor.ts` (with its data model from `src/content/models.ts`).

JavaScript/Node collaborators used by the code are modelled explicitly:

* the npm `slugify` package (options `lower: true, strict: true`), modelled for
  ASCII input including the ASCII entries of its character map;
* Node's `path` module (posix flavour: `parse`, `basename`, `extname`,
  `dirname`, `relative`, `resolve`), modelled for the already-normalized
  absolute/relative paths the pipeline feeds it;
* the WHATWG `URL` constructor's path parsing (`new URL(p, base).pathname` for
  a special scheme base), including percent-encoding, dot-segment handling,
  backslash-as-separator, and tab/newline stripping;
* `Array.prototype.sort`, which ES2019 requires to be stable; with a consistent
  comparator the stable sorted permutation is unique, so it is modelled by
  insertion sort with the comparator's induced total preorder;
* `String.prototype.localeCompare`, which in Node is ECMA-402 locale
  collation (ICU, CLDR root order for ASCII): modelled as a two-level
  collation over the printable-ASCII alphabet reachable in permalinks —
  primary weights order whitespace, then punctuation, then symbols, then
  digits, then letters with case folded; case is compared only at the
  tertiary level (lowercase first, the root default). On the lowercase slug
  alphabet this coincides with byte-wise order; on mixed-case permalinks it
  does not (`'Zebra'.localeCompare('apple') > 0`).

Strings are processed as `List Char`; `String` wrappers sit at the interfaces.
-/

namespace HcgBlog

/-! ## Character classes (ASCII, numeric codes for proof friendliness) -/

/-- JS regexp `\s` restricted to ASCII (space, tab, LF, VT, FF, CR). -/
def isJsSpace (c : Char) : Bool :=
  c.toNat = 32 || c.toNat = 9 || c.toNat = 10 || c.toNat = 11 || c.toNat = 12 || c.toNat = 13

/-- ASCII `A`-`Z`. -/
def isAsciiUpper (c : Char) : Bool := 65 ≤ c.toNat && c.toNat ≤ 90

/-- ASCII `a`-`z`. -/
def isAsciiLower (c : Char) : Bool := 97 ≤ c.toNat && c.toNat ≤ 122

/-- ASCII `0`-`9`. -/
def isAsciiDigit (c : Char) : Bool := 48 ≤ c.toNat && c.toNat ≤ 57

/-- ASCII alphanumeric, JS regexp `[A-Za-z0-9]`. -/
def isAsciiAlphanum (c : Char) : Bool := isAsciiUpper c || isAsciiLower c || isAsciiDigit c

/-- Characters allowed by the permalink pattern `[a-z0-9-]`. -/
def isPatChar (c : Char) : Bool := isAsciiLower c || isAsciiDigit c || c.toNat = 45

/-! ## Generic list-of-char utilities -/

/-- `f` mapped over a list, concatenating the resulting fragments. -/
def mapConcat (f : α → List β) : List α → List β
  | [] => []
  | a :: r => f a ++ mapConcat f r

/-- Join chunks with a single separator character (model of `Array.join`). -/
def intercalateChar (sep : Char) : List (List Char) → List Char
  | [] => []
  | [w] => w
  | w :: ws => w ++ sep :: intercalateChar sep ws

/-- Split on `/` (0x2f), keeping empty chunks, model of `String.split('/')`. -/
def splitSeg : List Char → List (List Char)
  | [] => [[]]
  | c :: r =>
    if c.toNat = 47 then [] :: splitSeg r
    else
      match splitSeg r with
      | [] => [[c]]
      | s :: ss => (c :: s) :: ss

/-! ## Model of the npm `slugify` package, options `lower: true, strict: true`

The package maps each character through its character map (ASCII entries are
included here; the replacement character `-` becomes a space), removes
characters outside its default keep set, then (strict mode) removes everything
but `[A-Za-z0-9\s]`, trims, collapses whitespace runs to the replacement `-`,
and lowercases. -/

/-- ASCII entries of slugify's character map (identity on other ASCII chars).
Codes: 36 `$`, 37 `%`, 38 `&`, 60 `<`, 62 `>`, 124 vertical bar. -/
def slugCharMap (c : Char) : List Char :=
  if c.toNat = 36 then "dollar".data
  else if c.toNat = 37 then "percent".data
  else if c.toNat = 38 then "and".data
  else if c.toNat = 60 then "less".data
  else if c.toNat = 62 then "greater".data
  else if c.toNat = 124 then "or".data
  else [c]

/-- slugify's default removal regexp keep set `[\w\s$*_+~.()'"!\-:@]`.
Codes: 95 `_`, 36 `$`, 42 `*`, 43 `+`, 126 `~`, 46 `.`, 40 `(`, 41 `)`,
39 apostrophe, 34 quote, 33 `!`, 45 `-`, 58 `:`, 64 `@`. -/
def slugKeepDefault (c : Char) : Bool :=
  isAsciiAlphanum c || c.toNat = 95 || isJsSpace c || c.toNat = 36 || c.toNat = 42 ||
  c.toNat = 43 || c.toNat = 126 || c.toNat = 46 || c.toNat = 40 || c.toNat = 41 ||
  c.toNat = 39 || c.toNat = 34 || c.toNat = 33 || c.toNat = 45 || c.toNat = 58 ||
  c.toNat = 64

/-- Per input character: character map, replacement `-` (45) to space, removal. -/
def slugMapChar (c : Char) : List Char :=
  let mapped := slugCharMap c
  let mapped := if mapped = ['-'] then [' '] else mapped
  mapped.filter slugKeepDefault

/-- Maximal runs of non-whitespace characters (model of trim followed by
replacing `\s+` with the separator: the runs are joined with `-`). -/
def wordsAux : List Char → List Char → List (List Char)
  | [], w => if w = [] then [] else [w.reverse]
  | c :: r, w =>
    if isJsSpace c then
      if w = [] then wordsAux r [] else w.reverse :: wordsAux r []
    else wordsAux r (c :: w)

/-- slugify with `lower: true, strict: true` on a character list. -/
def slugifyL (cs : List Char) : List Char :=
  let mapped := mapConcat slugMapChar cs
  let strict := mapped.filter (fun c => isAsciiAlphanum c || isJsSpace c)
  (intercalateChar '-' (wordsAux strict [])).map Char.toLower

/-- slugify with `lower: true, strict: true`. -/
def slugify (s : String) : String := ⟨slugifyL s.data⟩

/-- Model of the `replace` call on `parsedPath.name` whose regexp matches a
leading date: strip one leading `YYYY-MM-DD-` prefix (four digits, dash, two
digits, dash, two digits, dash). -/
def stripLeadingDate (cs : List Char) : List Char :=
  match cs with
  | y1 :: y2 :: y3 :: y4 :: '-' :: m1 :: m2 :: '-' :: d1 :: d2 :: '-' :: rest =>
    if [y1, y2, y3, y4, m1, m2, d1, d2].all isAsciiDigit then rest else cs
  | _ => cs

/-! ## Model of Node `path` (posix) -/

/-- Strip trailing `/` characters. -/
def stripTrailingSlashes (cs : List Char) : List Char :=
  (cs.reverse.dropWhile (fun c => c.toNat = 47)).reverse

/-- `path.basename`. -/
def pathBasenameL (p : List Char) : List Char :=
  let q := stripTrailingSlashes p
  if q = [] then (if p = [] then [] else [Char.ofNat 47])
  else (q.reverse.takeWhile (fun c => c.toNat ≠ 47)).reverse

/-- `path.extname`: from the last `.` of the basename, when that `.` is not
its first character. -/
def pathExtnameL (p : List Char) : List Char :=
  let b := pathBasenameL p
  let revAfterDot := b.reverse.takeWhile (fun c => c.toNat ≠ 46)
  if revAfterDot.length = b.length then []
  else if revAfterDot.length + 1 = b.length then []
  else '.' :: revAfterDot.reverse

/-- `path.parse(p).name`: basename without the extension. -/
def pathNameL (p : List Char) : List Char :=
  let b := pathBasenameL p
  b.take (b.length - (pathExtnameL p).length)

/-- `path.parse(p).dir`: everything before the last separator (one separator
dropped), with the root preserved. -/
def pathDirL (p : List Char) : List Char :=
  let q := stripTrailingSlashes p
  let pre := (q.reverse.dropWhile (fun c => c.toNat ≠ 47)).reverse
  if pre = [] then []
  else
    let d := pre.dropLast
    if d = [] then [Char.ofNat 47] else d

/-- `path.dirname`. -/
def pathDirnameL (p : List Char) : List Char :=
  let q := stripTrailingSlashes p
  if q = [] then (if p = [] then ['.'] else [Char.ofNat 47])
  else
    let pre := (q.reverse.dropWhile (fun c => c.toNat ≠ 47)).reverse
    if pre = [] then ['.']
    else
      let d := stripTrailingSlashes pre
      if d = [] then [Char.ofNat 47] else d

/-- Drop the longest shared leading run of two segment lists. -/
def dropSharedLead : List (List Char) → List (List Char) →
    List (List Char) × List (List Char)
  | a :: as, b :: bs => if a = b then dropSharedLead as bs else (a :: as, b :: bs)
  | as, bs => (as, bs)

/-- `path.relative` on already-resolved absolute paths. -/
def pathRelativeL (fromP toP : List Char) : List Char :=
  let fs := (splitSeg fromP).filter (· ≠ [])
  let ts := (splitSeg toP).filter (· ≠ [])
  let (fs', ts') := dropSharedLead fs ts
  intercalateChar '/' (List.replicate fs'.length ['.', '.'] ++ ts')

/-- Resolve `.`/`..`/empty segments (left fold of path normalization). -/
def normalizeSegs (segs : List (List Char)) : List (List Char) :=
  segs.foldl
    (fun acc s =>
      if s = [] || s = ['.'] then acc
      else if s = ['.', '.'] then acc.dropLast
      else acc ++ [s])
    []

/-- `path.resolve(base, rel)` with `base` absolute. -/
def pathResolveL (base rel : List Char) : List Char :=
  Char.ofNat 47 :: intercalateChar '/' (normalizeSegs (splitSeg (base ++ Char.ofNat 47 :: rel)))

/-- `path.basename` on `String`. -/
def pathBasename (p : String) : String := ⟨pathBasenameL p.data⟩

/-- `path.extname` on `String`. -/
def pathExtname (p : String) : String := ⟨pathExtnameL p.data⟩

/-- `path.dirname` on `String`. -/
def pathDirname (p : String) : String := ⟨pathDirnameL p.data⟩

/-- `path.relative` on `String`. -/
def pathRelative (fromP toP : String) : String := ⟨pathRelativeL fromP.data toP.data⟩

/-! ## Model of WHATWG URL path parsing

`new URL(input, 'http://dummybase.com').pathname` for an `input` that begins
with `/`: strip leading/trailing C0 controls and spaces, remove tabs and
newlines, then run the path state machine (segments split on `/` or `\`,
single/double dot segments resolved, other characters UTF-8 percent-encoded
with the path percent-encode set, `?` and `#` terminating the path). -/

/-- Uppercase hex digit for a value below 16. -/
def hexUpperDigit (n : Nat) : Char :=
  if n < 10 then Char.ofNat (48 + n) else Char.ofNat (55 + n)

/-- The path percent-encode set: C0 controls, non-ASCII, space, `"`, `#`,
`<`, `>`, `?`, backtick (96), caret (94), and the two curly braces
(123, 125). -/
def inPathEncodeSet (c : Char) : Bool :=
  c.toNat < 32 || c.toNat > 126 || c.toNat = 32 || c.toNat = 34 || c.toNat = 35 ||
  c.toNat = 60 || c.toNat = 62 || c.toNat = 63 || c.toNat = 96 || c.toNat = 94 ||
  c.toNat = 123 || c.toNat = 125

/-- UTF-8 percent-encode a character with the path percent-encode set. -/
def percentEncodeChar (c : Char) : List Char :=
  if inPathEncodeSet c then
    mapConcat (fun b => ['%', hexUpperDigit (b.toNat / 16), hexUpperDigit (b.toNat % 16)])
      (String.utf8EncodeChar c)
  else [c]

/-- ASCII lowercase of a segment buffer (for dot-segment detection). -/
def segAsciiLower (s : List Char) : List Char := s.map Char.toLower

/-- A single-dot path segment: `.` or `%2e` (ASCII case-insensitive). -/
def isSingleDotSeg (s : List Char) : Bool :=
  segAsciiLower s = ['.'] || segAsciiLower s = ['%', '2', 'e']

/-- A double-dot path segment: `..`, `.%2e`, `%2e.` or `%2e%2e`
(ASCII case-insensitive). -/
def isDoubleDotSeg (s : List Char) : Bool :=
  let l := segAsciiLower s
  l = ['.', '.'] || l = ['.', '%', '2', 'e'] || l = ['%', '2', 'e', '.'] ||
  l = ['%', '2', 'e', '%', '2', 'e']

/-- Close the current segment buffer: double dots shorten the path, single
dots vanish; a segment closed by end-of-input (rather than a separator)
leaves a trailing empty segment in the dot cases. -/
def urlCloseSeg (buf : List Char) (path : List (List Char)) (slashTerm : Bool) :
    List (List Char) :=
  if isDoubleDotSeg buf then (if slashTerm then path.dropLast else path.dropLast ++ [[]])
  else if isSingleDotSeg buf then (if slashTerm then path else path ++ [[]])
  else path ++ [buf]

/-- The URL path state machine, after the leading `/`: 47 `/` and 92 `\`
close segments, 63 `?` and 35 `#` end the path, other characters are
percent-encoded into the buffer. -/
def urlPathRun : List Char → List Char → List (List Char) → List (List Char)
  | [], buf, path => urlCloseSeg buf path false
  | c :: rest, buf, path =>
    if c.toNat = 47 || c.toNat = 92 then urlPathRun rest [] (urlCloseSeg buf path true)
    else if c.toNat = 63 || c.toNat = 35 then urlCloseSeg buf path false
    else urlPathRun rest (buf ++ percentEncodeChar c) path

/-- Input preprocessing: trim leading/trailing C0-or-space, strip tab/LF/CR. -/
def urlTrim (s : List Char) : List Char :=
  let t := (s.dropWhile (fun c => c.toNat ≤ 32)).reverse.dropWhile (fun c => c.toNat ≤ 32)
  t.reverse.filter (fun c => c.toNat ≠ 9 && c.toNat ≠ 10 && c.toNat ≠ 13)

/-- `new URL(input, 'http://dummybase.com').pathname` for input beginning
with `/`. -/
def urlPathnameL (s : List Char) : List Char :=
  let t := urlTrim s
  let rest := match t with
    | c :: r => if c.toNat = 47 || c.toNat = 92 then r else t
    | [] => []
  Char.ofNat 47 :: intercalateChar '/' (urlPathRun rest [] [])

/-! ## Data model (`src/content/models.ts`, `src/config`) -/

/-- The value of the front matter `published` key, as seen by the strict
`=== false` test: absent, an actual boolean, or some other value. -/
inductive PublishedField
  | undef
  | boolVal (b : Bool)
  | nonBool
deriving DecidableEq, Repr

/-- The value of the front matter `date` key after `parseMarkdownFile`
normalization. `dateObj none` is a JS `Date` whose `getTime()` is `NaN`;
`nonDate` is any non-`Date` value, together with its JS truthiness. -/
inductive DateField
  | undef
  | dateObj (time : Option Int)
  | nonDate (truthy : Bool)
deriving DecidableEq, Repr

/-- Front matter fields the pipeline inspects (other keys pass through and
never influence control flow). -/
structure FrontMatter where
  slug : Option String := none
  published : PublishedField := .undef
  date : DateField := .undef
deriving DecidableEq, Repr

/-- `fileType` tag of a content item. -/
inductive FileTypeTag
  | markdown
  | html
deriving DecidableEq, Repr

/-- The `itemType` parameter of `processItem`. -/
inductive ItemType
  | post
  | page
  | draft
deriving DecidableEq, Repr

/-- The classification computed in the `processContent` loop, where root-level
files get the temporary tag `root_page`. -/
inductive RawItemType
  | post
  | draft
  | page
  | rootPage
deriving DecidableEq, Repr

/-- `root_page` is processed as `page`. -/
def RawItemType.toItemType : RawItemType → ItemType
  | .post => .post
  | .draft => .draft
  | .page => .page
  | .rootPage => .page

/-- The resolved `config.paths` (absolute paths, as produced by `loadConfig`). -/
structure SitePaths where
  source : String
  output : String
  posts : String
  pages : String
  drafts : String
deriving DecidableEq, Repr

/-- The part of `SiteConfig` this core consumes. -/
structure SiteConfig where
  paths : SitePaths
deriving DecidableEq, Repr

/-- Result of `parseMarkdownFile` (the markdown-rendering collaborator),
already normalized. -/
structure ParsedMarkdown where
  frontMatter : FrontMatter
  markdownContent : String
  htmlContent : String
deriving DecidableEq, Repr

/-- One discovered source file together with the outcome of the I/O
collaborators on it: `mdParse` is what `parseMarkdownFile` would return
(`none` models a thrown read/parse error), `htmlRead` is what `fs.readFile`
would return. -/
structure SourceFile where
  path : String
  mdParse : Option ParsedMarkdown := none
  htmlRead : Option String := none
deriving DecidableEq, Repr

/-- `ContentItem` (posts additionally carry their required `date`). -/
structure ContentItem where
  id : String
  sourcePath : String
  relativePath : String
  fileType : FileTypeTag
  isDraft : Bool
  frontMatter : FrontMatter
  rawContent : String
  htmlContent : String
  permalink : String
  outputHref : String
  outputPath : String
  date : Option Int := none
deriving DecidableEq, Repr

/-- `SiteContent`. -/
structure SiteContent where
  posts : List ContentItem
  pages : List ContentItem
  drafts : List ContentItem
deriving DecidableEq, Repr

/-! ## `generatePermalink` (processor.ts lines 27-94) -/

/-- The slug computed by `generatePermalink`: front-matter slug override (JS
truthiness, so an empty string falls through), date prefix stripping for
posts, otherwise the filename stem. -/
def permSlugOf (itemPath : String) (frontMatter : FrontMatter)
    (itemType : ItemType) : List Char :=
  let name := pathNameL itemPath.data
  let defaultSlug : List Char :=
    if itemType = .post then slugifyL (stripLeadingDate name) else slugifyL name
  match frontMatter.slug with
  | some s => if s = "" then defaultSlug else slugifyL s.data
  | none => defaultSlug

/-- The `pathSegments` computed by `generatePermalink`: fixed base segment for
posts and drafts; for pages the relative directory segments with every
component equal to the pages-root directory name filtered out, and the slug
appended unless it is `index`. -/
def permSegsOf (cfg : SiteConfig) (itemPath : String) (frontMatter : FrontMatter)
    (itemType : ItemType) : List (List Char) :=
  let slug := permSlugOf itemPath frontMatter itemType
  if itemType = .post then ["blog".data, slug]
  else if itemType = .draft then ["drafts".data, slug]
  else
    let pagesBaseDirName := pathBasenameL cfg.paths.pages.data
    let dirSegments := (splitSeg (pathDirL itemPath.data)).filter (· ≠ [])
    let relevantSegments := dirSegments.filter (· ≠ pagesBaseDirName)
    if slug = "index".data then relevantSegments else relevantSegments ++ [slug]

/-- The permalink generator: slug and segments as above, `/`-joined and pushed
through the URL parser, then the trailing-slash rules. -/
def generatePermalink (cfg : SiteConfig) (itemPath : String)
    (frontMatter : FrontMatter) (itemType : ItemType) : String :=
  let slug := permSlugOf itemPath frontMatter itemType
  let joinedPath := intercalateChar '/' (permSegsOf cfg itemPath frontMatter itemType)
  let urlInput :=
    if joinedPath.head? = some (Char.ofNat 47) then joinedPath
    else Char.ofNat 47 :: joinedPath
  let pathname := urlPathnameL urlInput
  let ext := pathExtnameL itemPath.data
  let finalPermalink :=
    if pathname ≠ [Char.ofNat 47] ∧
        (slug = "index".data ∨ ext.map Char.toLower = ".md".data) then
      (if pathname.getLast? ≠ some (Char.ofNat 47) then pathname ++ [Char.ofNat 47]
       else pathname)
    else if pathname ≠ [Char.ofNat 47] ∧ pathname.getLast? ≠ some (Char.ofNat 47) ∧
        ext = [] ∧ slug ≠ "index".data then
      pathname ++ [Char.ofNat 47]
    else pathname
  ⟨finalPermalink⟩

/-! ## `generateOutputPath` (processor.ts lines 97-111) -/

/-- Map a permalink to the absolute output file path. -/
def generateOutputPath (cfg : SiteConfig) (permalink : String) : String :=
  let p := permalink.data
  let filePath :=
    if p.getLast? = some (Char.ofNat 47) then p ++ "index.html".data
    else if pathExtnameL p = [] then p ++ ".html".data
    else p
  let rel := if filePath.head? = some (Char.ofNat 47) then filePath.tail else filePath
  ⟨pathResolveL cfg.paths.output.data rel⟩

/-! ## `processItem` (processor.ts lines 115-192) -/

/-- The part of `processItem` after the collaborator call succeeded with
`{frontMatter, rawContent, htmlContent}`: publish filter, permalink and
output path computation, item construction, and the post date requirement. -/
def processItemRest (cfg : SiteConfig) (f : SourceFile) (itemType : ItemType)
    (frontMatter : FrontMatter) (rawContent htmlContent : String) :
    Option ContentItem :=
  let relativePath := pathRelative cfg.paths.source f.path
  let fileExtension : List Char := (pathExtnameL f.path.data).map Char.toLower
  let fileType : FileTypeTag := if fileExtension = ".md".data then .markdown else .html
  let isDraft : Bool := itemType = .draft
  if frontMatter.published = .boolVal false ∧ isDraft = false then none
  else
    let permalink := generatePermalink cfg relativePath frontMatter itemType
    let outputPath := generateOutputPath cfg permalink
    let baseItem : ContentItem :=
      { id := relativePath
        sourcePath := f.path
        relativePath := relativePath
        fileType := fileType
        isDraft := isDraft
        frontMatter := frontMatter
        rawContent := rawContent
        htmlContent := htmlContent
        permalink := permalink
        outputHref := ""
        outputPath := outputPath }
    if itemType = .post then
      match frontMatter.date with
      | .dateObj (some t) => some { baseItem with date := some t }
      | _ => none
    else some baseItem

/-- Build one content item, or `none` when the file is skipped (read/parse
failure, `published: false` on a non-draft, or a post without a valid date). -/
def processItem (cfg : SiteConfig) (f : SourceFile) (itemType : ItemType) :
    Option ContentItem :=
  let fileExtension : List Char := (pathExtnameL f.path.data).map Char.toLower
  let fileType : FileTypeTag := if fileExtension = ".md".data then .markdown else .html
  let parsed? : Option (FrontMatter × String × String) :=
    match fileType with
    | .markdown => f.mdParse.map (fun p => (p.frontMatter, p.markdownContent, p.htmlContent))
    | .html => f.htmlRead.map (fun raw => ({}, raw, raw))
  match parsed? with
  | none => none
  | some (frontMatter, rawContent, htmlContent) =>
    processItemRest cfg f itemType frontMatter rawContent htmlContent

/-! ## Classification and the processing loop (processor.ts lines 212-242) -/

/-- One character list starts with another. -/
def charsStartWith : List Char → List Char → Bool
  | _, [] => true
  | [], _ :: _ => false
  | a :: as, b :: bs => a = b && charsStartWith as bs

/-- Model of JS `String.prototype.startsWith` (no position argument). -/
def jsStartsWith (s pre : String) : Bool := charsStartWith s.data pre.data

/-- The classification chain of the `processContent` loop. -/
def classifyRaw (cfg : SiteConfig) (filePath : String) : Option RawItemType :=
  if jsStartsWith filePath cfg.paths.posts then some .post
  else if jsStartsWith filePath cfg.paths.drafts then some .draft
  else if jsStartsWith filePath cfg.paths.pages then some .page
  else if pathDirname filePath = cfg.paths.source then some .rootPage
  else none

/-- One iteration of the `processContent` loop body. -/
def processStep (cfg : SiteConfig) (acc : SiteContent) (f : SourceFile) : SiteContent :=
  match classifyRaw cfg f.path with
  | none => acc
  | some rt =>
    match processItem cfg f rt.toItemType with
    | none => acc
    | some item =>
      if item.isDraft then { acc with drafts := acc.drafts ++ [item] }
      else if rt = .post then { acc with posts := acc.posts ++ [item] }
      else { acc with pages := acc.pages ++ [item] }

/-- The unsorted collections, in discovery order. -/
def collectContent (cfg : SiteConfig) (files : List SourceFile) : SiteContent :=
  files.foldl (processStep cfg) ⟨[], [], []⟩

/-! ## Sorting (processor.ts lines 244-249) -/

/-- Byte-wise (code-point) lexicographic comparison of character lists: the
comparison the specification names for the pages/drafts order. This is a
statement-side definition; the code's comparator is `localeCompare`, modelled
by `icuLeB` below. -/
def charListLeB : List Char → List Char → Bool
  | [], _ => true
  | _ :: _, [] => false
  | a :: as, b :: bs =>
    if a.toNat < b.toNat then true
    else if b.toNat < a.toNat then false
    else charListLeB as bs

/-- Primary collation weight of a character under the CLDR root collation
(the order ICU and hence Node's default-locale `localeCompare` use),
restricted to printable ASCII: letters case-folded (case is not a primary
difference), digits before letters, and the root's punctuation-and-symbol
order (space, underscore, hyphen, comma, semicolon, colon, exclamation,
question, period, apostrophe, quote, parentheses, square brackets, curly
brackets, at, asterisk, slash, backslash, ampersand, hash, percent, grave,
caret, plus, less-than, equals, greater-than, vertical bar, tilde, dollar)
before digits. Characters outside printable ASCII cannot appear in a
permalink (the URL parser percent-encodes them); they get code-point
weights above the modelled range. -/
def icuPrimary (c : Char) : Nat :=
  if isAsciiLower c then 100 + (c.toNat - 97)
  else if isAsciiUpper c then 100 + (c.toNat - 65)
  else if isAsciiDigit c then 50 + (c.toNat - 48)
  else if c.toNat = 32 then 10
  else if c.toNat = 95 then 11
  else if c.toNat = 45 then 12
  else if c.toNat = 44 then 13
  else if c.toNat = 59 then 14
  else if c.toNat = 58 then 15
  else if c.toNat = 33 then 16
  else if c.toNat = 63 then 17
  else if c.toNat = 46 then 18
  else if c.toNat = 39 then 19
  else if c.toNat = 34 then 20
  else if c.toNat = 40 then 21
  else if c.toNat = 41 then 22
  else if c.toNat = 91 then 23
  else if c.toNat = 93 then 24
  else if c.toNat = 123 then 25
  else if c.toNat = 125 then 26
  else if c.toNat = 64 then 27
  else if c.toNat = 42 then 28
  else if c.toNat = 47 then 29
  else if c.toNat = 92 then 30
  else if c.toNat = 38 then 31
  else if c.toNat = 35 then 32
  else if c.toNat = 37 then 33
  else if c.toNat = 96 then 34
  else if c.toNat = 94 then 35
  else if c.toNat = 43 then 36
  else if c.toNat = 60 then 37
  else if c.toNat = 61 then 38
  else if c.toNat = 62 then 39
  else if c.toNat = 124 then 40
  else if c.toNat = 126 then 41
  else if c.toNat = 36 then 42
  else 1000 + c.toNat

/-- Tertiary (case) collation weight: the root collation sorts lowercase
before uppercase when the primary weights tie. -/
def icuTertiary (c : Char) : Nat := if isAsciiUpper c then 1 else 0

/-- Three-way lexicographic comparison of weight sequences. -/
def natListCmp : List Nat → List Nat → Ordering
  | [], [] => .eq
  | [], _ :: _ => .lt
  | _ :: _, [] => .gt
  | a :: as, b :: bs =>
    if a < b then .lt else if b < a then .gt else natListCmp as bs

/-- `a.localeCompare(b) <= 0` under the modelled root collation: the full
primary key sequences are compared first, and only a primary tie falls
through to the tertiary (case) key sequences, as the Unicode Collation
Algorithm prescribes. -/
def icuLeB (a b : List Char) : Bool :=
  match natListCmp (a.map icuPrimary) (b.map icuPrimary) with
  | .lt => true
  | .gt => false
  | .eq =>
    match natListCmp (a.map icuTertiary) (b.map icuTertiary) with
    | .gt => false
    | _ => true

/-- The lowercase slug alphabet `[-./0-9a-z]` on which the root collation
and byte-wise comparison agree. -/
def isByteOrderChar (c : Char) : Bool :=
  c.toNat = 45 || c.toNat = 46 || c.toNat = 47 || isAsciiDigit c || isAsciiLower c

/-- Model of `a.localeCompare(b) <= 0` (Node: ECMA-402 default-locale ICU
collation, whose ASCII behaviour is the CLDR root order modelled by
`icuLeB`). -/
def localeCompareLe (a b : String) : Prop := icuLeB a.data b.data = true

instance : DecidableRel localeCompareLe := fun a b =>
  inferInstanceAs (Decidable (icuLeB a.data b.data = true))

/-- The order induced by the posts comparator
`(a, b) => b.date.getTime() - a.date.getTime()` (every post carries a date;
`getD` is only a totalization). -/
def postDateGe (a b : ContentItem) : Prop := b.date.getD 0 ≤ a.date.getD 0

instance : DecidableRel postDateGe := fun a b =>
  inferInstanceAs (Decidable (b.date.getD 0 ≤ a.date.getD 0))

/-- The order induced by the pages/drafts comparator
`(a, b) => a.permalink.localeCompare(b.permalink)`. -/
def permalinkLe (a b : ContentItem) : Prop := localeCompareLe a.permalink b.permalink

instance : DecidableRel permalinkLe := fun a b =>
  inferInstanceAs (Decidable (localeCompareLe a.permalink b.permalink))

/-- `processContent`: collect all classified items, then sort posts by date
descending and pages/drafts by permalink ascending with stable sorts. -/
def processContent (cfg : SiteConfig) (files : List SourceFile) : SiteContent :=
  let c := collectContent cfg files
  { posts := c.posts.insertionSort postDateGe
    pages := c.pages.insertionSort permalinkLe
    drafts := c.drafts.insertionSort permalinkLe }

/-! ## Statement-level definitions -/

/-- Segment lists of the permalink pattern: every segment nonempty over
`[a-z0-9-]`, terminated by one empty segment (the trailing slash). -/
def patSegsOk : List (List Char) → Bool
  | [] => false
  | s :: rest =>
    if rest = [] then s = [] else s ≠ [] && s.all isPatChar && patSegsOk rest

/-- The spec's permalink pattern `[a-z0-9-]` segments, leading and trailing
slash, on a character list; the bare root `/` matches (zero segments). -/
def permalinkPatOkL : List Char → Bool
  | c :: rest => c.toNat = 47 && patSegsOk (splitSeg rest)
  | [] => false

/-- The spec's permalink pattern on a `String`. -/
def permalinkPatOk (s : String) : Bool := permalinkPatOkL s.data

/-- The directory-style URL of a segment list: drop empty segments, join with
`/`, wrap in leading and trailing slashes (bare `/` when no segments). -/
def dirPermalinkL (segs : List (List Char)) : List Char :=
  let ss := segs.filter (· ≠ [])
  if ss = [] then [Char.ofNat 47]
  else Char.ofNat 47 :: (intercalateChar '/' ss ++ [Char.ofNat 47])

/-- The directory-style URL of a segment list, as a `String`. -/
def dirPermalink (segs : List (List Char)) : String := ⟨dirPermalinkL segs⟩

/-- A path segment that is not a dot segment. -/
def plainSeg (s : List Char) : Bool := s ≠ ['.'] && s ≠ ['.', '.']

/-- A canonical absolute path: leading slash, all segments nonempty and not
dot segments (so no trailing slash, no repeated slashes). -/
def canonAbsPath (s : String) : Bool :=
  match s.data with
  | c :: rest => c.toNat = 47 && (splitSeg rest).all (fun seg => seg ≠ [] && plainSeg seg)
  | [] => false

/-- A clean absolute permalink: leading slash, no dot segments, and no empty
segment except possibly the final one (a trailing slash). -/
def cleanPermalink (s : String) : Bool :=
  match s.data with
  | c :: rest =>
    c.toNat = 47 && (splitSeg rest).all plainSeg &&
      (splitSeg rest).dropLast.all (· ≠ [])
  | [] => false

/-- Modelled from the claim's words, for comparison with the code: remove only
the first occurrence of a directory component. -/
def removeOneOccurrence (base : List Char) : List (List Char) → List (List Char)
  | [] => []
  | s :: rest => if s = base then rest else s :: removeOneOccurrence base rest

/-- The front matter a file will carry into the publish/date checks: the
parsed front matter for markdown files, the empty mapping for html files;
`none` when the corresponding collaborator fails. -/
def itemFrontMatter (f : SourceFile) : Option FrontMatter :=
  if (pathExtnameL f.path.data).map Char.toLower = ".md".data then
    f.mdParse.map (fun p => p.frontMatter)
  else
    f.htmlRead.map (fun _ => ({} : FrontMatter))

/-! ## Sanity checks (concrete scenarios from the specification) -/

/-- Example configuration with resolved absolute paths. -/
def cfgEx : SiteConfig :=
  { paths :=
    { source := "/site"
      output := "/out"
      posts := "/site/posts"
      pages := "/site/pages"
      drafts := "/site/drafts" } }

/-- A markdown parse result with the given front matter. -/
def mdDoc (fm : FrontMatter) : ParsedMarkdown :=
  { frontMatter := fm, markdownContent := "body", htmlContent := "<p>body</p>" }

/-- A markdown source file whose parse succeeds. -/
def fileMd (p : String) (fm : FrontMatter) : SourceFile :=
  { path := p, mdParse := some (mdDoc fm) }

/-- An html source file whose read succeeds. -/
def fileHtml (p : String) : SourceFile :=
  { path := p, htmlRead := some "<h1>x</h1>" }

/-- Placeholder item (used as the default of list accessors in witnesses). -/
def dummyItem : ContentItem :=
  { id := ""
    sourcePath := ""
    relativePath := ""
    fileType := .html
    isDraft := false
    frontMatter := {}
    rawContent := ""
    htmlContent := ""
    permalink := ""
    outputHref := ""
    outputPath := "" }

/-- Front matter carrying only a valid date. -/
def fmDate (t : Int) : FrontMatter := { date := .dateObj (some t) }

/-- Discovery-ordered input with two posts of equal date. -/
def filesC3 : List SourceFile :=
  [fileMd "/site/posts/b.md" (fmDate 5), fileMd "/site/posts/a.md" (fmDate 5)]

/-- First post of `filesC3` in discovery order. -/
def c3x : ContentItem := ((collectContent cfgEx filesC3).posts).headD dummyItem

/-- Second post of `filesC3` in discovery order. -/
def c3y : ContentItem := ((collectContent cfgEx filesC3).posts).getLastD dummyItem

/-- Two page directories whose names differ in case: `Zebra` (uppercase)
discovered before `apple`. Directory components are not slugified, so the
permalinks are `/Zebra/` and `/apple/`. -/
def filesC3b : List SourceFile :=
  [fileMd "/site/pages/Zebra/index.md" {}, fileMd "/site/pages/apple/index.md" {}]

/-- Single-file input for the markdown-page witness. -/
def filesC1 : List SourceFile := [fileMd "/site/pages/about.md" {}]

/-- The page item produced from `filesC1`. -/
def c1item : ContentItem := ((processContent cfgEx filesC1).pages).headD dummyItem

/-- Front matter with `published: false`. -/
def fmUnpub : FrontMatter := { published := .boolVal false }

/-- A post file whose front matter has no date. -/
def fileC4 : SourceFile := fileMd "/site/posts/nodate.md" {}

/-- A page with `published: false`. -/
def fileC5page : SourceFile := fileMd "/site/pages/secret.md" fmUnpub

/-- A draft with `published: false`. -/
def fileC5draft : SourceFile := fileMd "/site/drafts/wip.md" fmUnpub

/-- Front matter with an explicit slug. -/
def fmSlug : FrontMatter := { slug := some "custom-slug" }

/-! ## Character-level lemmas -/

theorem charToNat_ofNat {n : Nat} (h : n < 55296) : (Char.ofNat n).toNat = n := by
  simp [Char.ofNat, Nat.isValidChar, Char.ofNatAux, Char.toNat, h]
  rfl

theorem toLower_of_not_upper {c : Char} (h : ¬(65 ≤ c.toNat ∧ c.toNat ≤ 90)) :
    Char.toLower c = c := by
  simp only [Char.toLower]
  rw [if_neg (by omega)]

theorem toLower_toNat_of_upper {c : Char} (h1 : 65 ≤ c.toNat) (h2 : c.toNat ≤ 90) :
    (Char.toLower c).toNat = c.toNat + 32 := by
  simp only [Char.toLower]
  rw [if_pos ⟨h1, h2⟩]
  exact charToNat_ofNat (by omega)

theorem isPatChar_iff {c : Char} : isPatChar c = true ↔
    (97 ≤ c.toNat ∧ c.toNat ≤ 122) ∨ (48 ≤ c.toNat ∧ c.toNat ≤ 57) ∨ c.toNat = 45 := by
  simp only [isPatChar, isAsciiLower, isAsciiDigit, Bool.or_eq_true, Bool.and_eq_true,
    decide_eq_true_eq]
  omega

theorem isAsciiAlphanum_iff {c : Char} : isAsciiAlphanum c = true ↔
    (65 ≤ c.toNat ∧ c.toNat ≤ 90) ∨ (97 ≤ c.toNat ∧ c.toNat ≤ 122) ∨
      (48 ≤ c.toNat ∧ c.toNat ≤ 57) := by
  simp only [isAsciiAlphanum, isAsciiUpper, isAsciiLower, isAsciiDigit, Bool.or_eq_true,
    Bool.and_eq_true, decide_eq_true_eq]
  omega

theorem isPatChar_toLower {c : Char}
    (h : isAsciiAlphanum c = true ∨ c.toNat = 45) :
    isPatChar (Char.toLower c) = true := by
  rcases h with h | h
  · rcases isAsciiAlphanum_iff.mp h with h | h | h
    · have := toLower_toNat_of_upper h.1 h.2
      rw [isPatChar_iff]
      omega
    · rw [toLower_of_not_upper (by omega), isPatChar_iff]
      omega
    · rw [toLower_of_not_upper (by omega), isPatChar_iff]
      omega
  · rw [toLower_of_not_upper (by omega), isPatChar_iff]
    omega

theorem toNat_of_toLower_low {c : Char} {m : Nat} (hm : m < 97)
    (h : (Char.toLower c).toNat = m) : c.toNat = m := by
  by_cases hc : 65 ≤ c.toNat ∧ c.toNat ≤ 90
  · have := toLower_toNat_of_upper hc.1 hc.2
    omega
  · rw [toLower_of_not_upper hc] at h
    exact h

/-! ## List utility lemmas -/

theorem mem_mapConcat {f : α → List β} {b : β} :
    ∀ {l : List α}, b ∈ mapConcat f l ↔ ∃ a ∈ l, b ∈ f a
  | [] => by simp [mapConcat]
  | a :: r => by
    simp [mapConcat, List.mem_append, mem_mapConcat (l := r)]

theorem intercalateChar_cons {sep : Char} {w : List Char} {ws : List (List Char)}
    (h : ws ≠ []) :
    intercalateChar sep (w :: ws) = w ++ sep :: intercalateChar sep ws := by
  cases ws with
  | nil => exact absurd rfl h
  | cons x xs => rfl

theorem intercalateChar_append {sep : Char} {A B : List (List Char)}
    (hA : A ≠ []) (hB : B ≠ []) :
    intercalateChar sep (A ++ B) = intercalateChar sep A ++ sep :: intercalateChar sep B := by
  induction A with
  | nil => exact absurd rfl hA
  | cons a A ih =>
    cases A with
    | nil =>
      rw [List.cons_append, List.nil_append, intercalateChar_cons hB]
      rfl
    | cons a2 A2 =>
      rw [List.cons_append, intercalateChar_cons (by simp), intercalateChar_cons (by simp),
        ih (by simp)]
      simp

theorem mem_intercalateChar {sep : Char} {c : Char} :
    ∀ {ws : List (List Char)}, c ∈ intercalateChar sep ws →
      c = sep ∨ ∃ w ∈ ws, c ∈ w
  | [], h => by simp [intercalateChar] at h
  | [w], h => by
    simp only [intercalateChar] at h
    exact Or.inr ⟨w, by simp, h⟩
  | w :: w2 :: ws, h => by
    simp only [intercalateChar, List.mem_append, List.mem_cons] at h
    rcases h with h | h | h
    · exact Or.inr ⟨w, by simp, h⟩
    · exact Or.inl h
    · rcases @mem_intercalateChar sep c (w2 :: ws) h with h | ⟨w', hw', hc⟩
      · exact Or.inl h
      · exact Or.inr ⟨w', by simp [hw'], hc⟩

theorem splitSeg_ne_nil : ∀ {l : List Char}, splitSeg l ≠ []
  | [] => by simp [splitSeg]
  | c :: r => by
    simp only [splitSeg]
    split
    · simp
    · cases h : splitSeg r with
      | nil => simp
      | cons s ss => simp

theorem eq_slash_of_toNat_47 {c : Char} (h47 : c.toNat = 47) : c = '/' := by
  have h1 := Char.ofNat_toNat c
  rw [h47] at h1
  rw [← h1]

theorem intercalateChar_splitSeg : ∀ (l : List Char),
    intercalateChar '/' (splitSeg l) = l
  | [] => rfl
  | c :: r => by
    have ih := intercalateChar_splitSeg r
    simp only [splitSeg]
    by_cases h47 : c.toNat = 47
    · rw [if_pos h47, intercalateChar_cons splitSeg_ne_nil, ih,
        eq_slash_of_toNat_47 h47]
      rfl
    · rw [if_neg h47]
      cases h : splitSeg r with
      | nil => exact absurd h splitSeg_ne_nil
      | cons s ss =>
        rw [h] at ih
        cases ss with
        | nil =>
          have e2 : intercalateChar '/' [c :: s] = c :: s := rfl
          have e3 : intercalateChar '/' [s] = s := rfl
          rw [e3] at ih
          rw [e2, ih]
        | cons s2 ss2 =>
          rw [intercalateChar_cons (by simp)] at ih
          rw [intercalateChar_cons (by simp), ← ih]
          rfl

theorem splitSeg_append_slash : ∀ (x y : List Char),
    splitSeg (x ++ '/' :: y) = splitSeg x ++ splitSeg y
  | [], y => by
    have h : ('/' : Char).toNat = 47 := by decide
    simp [splitSeg, h]
  | c :: x, y => by
    have ih := splitSeg_append_slash x y
    have e : (c :: x) ++ '/' :: y = c :: (x ++ '/' :: y) := rfl
    rw [e]
    simp only [splitSeg]
    by_cases h47 : c.toNat = 47
    · rw [if_pos h47, if_pos h47, ih]
      simp
    · rw [if_neg h47, if_neg h47, ih]
      cases h : splitSeg x with
      | nil => exact absurd h splitSeg_ne_nil
      | cons s ss => simp

theorem splitSeg_no_slash : ∀ {l : List Char}, (∀ c ∈ l, c.toNat ≠ 47) →
    splitSeg l = [l]
  | [], _ => rfl
  | c :: r, h => by
    have ih := splitSeg_no_slash (l := r) (fun d hd => h d (by simp [hd]))
    simp only [splitSeg]
    rw [if_neg (h c (by simp)), ih]

theorem intercalateChar_ne_nil {sep : Char} {ss : List (List Char)}
    (h0 : ss ≠ []) (h1 : ∀ s ∈ ss, s ≠ []) : intercalateChar sep ss ≠ [] := by
  cases ss with
  | nil => exact absurd rfl h0
  | cons s rest =>
    cases rest with
    | nil => exact h1 s (by simp)
    | cons s2 rest2 =>
      rw [intercalateChar_cons (by simp)]
      cases hs : s with
      | nil => exact absurd hs (h1 s (by simp))
      | cons c cs => simp

theorem head?_intercalateChar_pat {ss : List (List Char)}
    (h0 : ss ≠ []) (h1 : ∀ s ∈ ss, s ≠ []) (h2 : ∀ s ∈ ss, ∀ c ∈ s, isPatChar c = true) :
    ∃ c, (intercalateChar '/' ss).head? = some c ∧ isPatChar c = true := by
  cases ss with
  | nil => exact absurd rfl h0
  | cons s rest =>
    cases hs : s with
    | nil => exact absurd hs (h1 s (by simp))
    | cons c cs =>
      refine ⟨c, ?_, h2 s (by simp) c (by simp [hs])⟩
      subst hs
      cases rest with
      | nil => simp [intercalateChar]
      | cons s2 rest2 =>
        rw [intercalateChar_cons (by simp)]
        simp

theorem getLast?_intercalateChar_pat : ∀ {ss : List (List Char)}, ss ≠ [] →
    (∀ s ∈ ss, s ≠ []) → (∀ s ∈ ss, ∀ c ∈ s, isPatChar c = true) →
    ∃ c, (intercalateChar '/' ss).getLast? = some c ∧ isPatChar c = true
  | [], h0, _, _ => absurd rfl h0
  | [s], _, h1, h2 => by
    rcases List.eq_nil_or_concat s with rfl | ⟨init, c, hs⟩
    · exact absurd rfl (h1 [] (by simp))
    · rw [List.concat_eq_append] at hs
      subst hs
      refine ⟨c, ?_, h2 (init ++ [c]) (by simp) c (by simp)⟩
      have e : intercalateChar '/' [init ++ [c]] = init ++ [c] := rfl
      rw [e, List.getLast?_concat]
  | s :: s2 :: rest, _, h1, h2 => by
    obtain ⟨c, hc, hcp⟩ := @getLast?_intercalateChar_pat (s2 :: rest) (by simp)
      (fun t ht => h1 t (by simp [ht])) (fun t ht d hd => h2 t (by simp [ht]) d hd)
    refine ⟨c, ?_, hcp⟩
    rw [intercalateChar_cons (by simp)]
    have hne : intercalateChar '/' (s2 :: rest) ≠ [] := by
      intro he
      rw [he] at hc
      simp at hc
    rw [List.getLast?_append]
    have e : ('/' :: intercalateChar '/' (s2 :: rest)).getLast? =
        (intercalateChar '/' (s2 :: rest)).getLast? := by
      cases hi : intercalateChar '/' (s2 :: rest) with
      | nil => exact absurd hi hne
      | cons x xs => simp
    rw [e, hc]
    simp

theorem splitSeg_intercalate {segs : List (List Char)}
    (hsl : ∀ s ∈ segs, ∀ c ∈ s, c.toNat ≠ 47) (hne : segs ≠ []) :
    splitSeg (intercalateChar '/' segs) = segs := by
  induction segs with
  | nil => exact absurd rfl hne
  | cons s rest ih =>
    cases rest with
    | nil =>
      simp only [intercalateChar]
      exact splitSeg_no_slash (hsl s (by simp))
    | cons s2 rest2 =>
      have h1 : intercalateChar '/' (s :: s2 :: rest2) =
          s ++ '/' :: intercalateChar '/' (s2 :: rest2) := by
        simp [intercalateChar]
      rw [h1, splitSeg_append_slash, splitSeg_no_slash (hsl s (by simp)),
        ih (fun t ht c hc => hsl t (by simp [ht]) c hc) (by simp)]
      simp

/-! ## slugify alphabet -/

theorem wordsAux_all : ∀ (cs acc : List Char),
    (∀ c ∈ cs, isAsciiAlphanum c = true ∨ isJsSpace c = true) →
    (∀ c ∈ acc, isAsciiAlphanum c = true) →
    ∀ w ∈ wordsAux cs acc, ∀ c ∈ w, isAsciiAlphanum c = true
  | [], acc, _, hacc, w, hw, c, hc => by
    simp only [wordsAux] at hw
    split at hw
    · simp at hw
    · simp only [List.mem_singleton] at hw
      subst hw
      exact hacc c (List.mem_reverse.mp hc)
  | d :: r, acc, hcs, hacc, w, hw, c, hc => by
    simp only [wordsAux] at hw
    by_cases hsp : isJsSpace d = true
    · rw [if_pos hsp] at hw
      split at hw
      · exact wordsAux_all r [] (fun x hx => hcs x (by simp [hx])) (by simp) w hw c hc
      · rcases List.mem_cons.mp hw with rfl | hw2
        · exact hacc c (List.mem_reverse.mp hc)
        · exact wordsAux_all r [] (fun x hx => hcs x (by simp [hx])) (by simp) w hw2 c hc
    · rw [if_neg hsp] at hw
      refine wordsAux_all r (d :: acc) (fun x hx => hcs x (by simp [hx])) ?_ w hw c hc
      intro x hx
      rcases List.mem_cons.mp hx with rfl | hx2
      · rcases hcs x (by simp) with h | h
        · exact h
        · exact absurd h hsp
      · exact hacc x hx2

theorem slugifyL_all_pat {cs : List Char} : ∀ c ∈ slugifyL cs, isPatChar c = true := by
  intro c hc
  simp only [slugifyL, List.mem_map] at hc
  obtain ⟨d, hd, rfl⟩ := hc
  rcases mem_intercalateChar hd with rfl | ⟨w, hw, hdw⟩
  · decide
  · have hall := wordsAux_all _ []
      (fun x hx => by
        have := List.of_mem_filter hx
        simpa using this)
      (by simp) w hw d hdw
    exact isPatChar_toLower (Or.inl hall)

/-! ## URL path parsing on clean segment lists -/

theorem dropWhile_gt32 {m : List Char} (hm : ∀ c ∈ m, 32 < c.toNat) :
    m.dropWhile (fun c => c.toNat ≤ 32) = m := by
  cases m with
  | nil => rfl
  | cons a r =>
    rw [List.dropWhile_cons]
    have := hm a (by simp)
    rw [if_neg (by simp; omega)]

theorem urlTrim_id {l : List Char} (h : ∀ c ∈ l, 32 < c.toNat) : urlTrim l = l := by
  simp only [urlTrim]
  rw [dropWhile_gt32 h, dropWhile_gt32 (by simp; intro c hc; exact h c (by simp [hc]))]
  rw [List.reverse_reverse, List.filter_eq_self]
  intro a ha
  have := h a ha
  simp
  omega

theorem percentEncodeChar_pat {c : Char} (h : isPatChar c = true) :
    percentEncodeChar c = [c] := by
  rw [isPatChar_iff] at h
  rw [percentEncodeChar, if_neg]
  simp only [inPathEncodeSet, Bool.or_eq_true, decide_eq_true_eq]
  omega

theorem segLower_ne_of_dot {s : List Char} (h : ∀ c ∈ s, isPatChar c = true)
    {t : List Char} (hd : ∃ x ∈ t, x.toNat = 46 ∨ x.toNat = 37) : segAsciiLower s ≠ t := by
  intro he
  obtain ⟨x, hx, hx2⟩ := hd
  rw [← he] at hx
  simp only [segAsciiLower, List.mem_map] at hx
  obtain ⟨c, hc, rfl⟩ := hx
  have hp := isPatChar_iff.mp (h c hc)
  rcases hx2 with h46 | h37
  · have := toNat_of_toLower_low (by omega) h46
    omega
  · have := toNat_of_toLower_low (by omega) h37
    omega

theorem patSeg_not_single {s : List Char} (h : ∀ c ∈ s, isPatChar c = true) :
    isSingleDotSeg s = false := by
  rw [Bool.eq_false_iff]
  intro ht
  simp only [isSingleDotSeg, Bool.or_eq_true, decide_eq_true_eq] at ht
  rcases ht with ht | ht
  · exact segLower_ne_of_dot h ⟨'.', by simp, Or.inl (by decide)⟩ ht
  · exact segLower_ne_of_dot h ⟨'%', by simp, Or.inr (by decide)⟩ ht

theorem patSeg_not_double {s : List Char} (h : ∀ c ∈ s, isPatChar c = true) :
    isDoubleDotSeg s = false := by
  rw [Bool.eq_false_iff]
  intro ht
  simp only [isDoubleDotSeg, Bool.or_eq_true, decide_eq_true_eq] at ht
  rcases ht with ((ht | ht) | ht) | ht
  · exact segLower_ne_of_dot h ⟨'.', by simp, Or.inl (by decide)⟩ ht
  · exact segLower_ne_of_dot h ⟨'.', by simp, Or.inl (by decide)⟩ ht
  · exact segLower_ne_of_dot h ⟨'%', by simp, Or.inr (by decide)⟩ ht
  · exact segLower_ne_of_dot h ⟨'%', by simp, Or.inr (by decide)⟩ ht

theorem urlCloseSeg_pat {s : List Char} (h : ∀ c ∈ s, isPatChar c = true)
    (path : List (List Char)) (b : Bool) : urlCloseSeg s path b = path ++ [s] := by
  rw [urlCloseSeg]
  rw [patSeg_not_double h, patSeg_not_single h]
  simp

theorem urlPathRun_word : ∀ (w : List Char), (∀ c ∈ w, isPatChar c = true) →
    ∀ (rest buf : List Char) (path : List (List Char)),
    urlPathRun (w ++ rest) buf path = urlPathRun rest (buf ++ w) path
  | [], _, rest, buf, path => by simp
  | c :: w, hw, rest, buf, path => by
    have hc := isPatChar_iff.mp (hw c (by simp))
    have e : (c :: w) ++ rest = c :: (w ++ rest) := rfl
    rw [e]
    simp only [urlPathRun]
    rw [if_neg (by simp only [Bool.or_eq_true, decide_eq_true_eq]; omega),
      if_neg (by simp only [Bool.or_eq_true, decide_eq_true_eq]; omega),
      percentEncodeChar_pat (hw c (by simp)),
      urlPathRun_word w (fun d hd => hw d (by simp [hd])) rest (buf ++ [c]) path]
    simp

theorem urlPathRun_segs : ∀ (segs : List (List Char)), segs ≠ [] →
    (∀ s ∈ segs, ∀ c ∈ s, isPatChar c = true) →
    ∀ (path : List (List Char)),
    urlPathRun (intercalateChar '/' segs) [] path = path ++ segs
  | [], h0, _, _ => absurd rfl h0
  | [s], _, hpat, path => by
    have e : intercalateChar '/' [s] = s := rfl
    have hw := urlPathRun_word s (hpat s (by simp)) [] [] path
    rw [List.append_nil] at hw
    rw [e, hw]
    simp only [urlPathRun, List.nil_append]
    exact urlCloseSeg_pat (hpat s (by simp)) path false
  | s :: s2 :: rest, _, hpat, path => by
    rw [intercalateChar_cons (by simp),
      urlPathRun_word s (hpat s (by simp)) _ [] path]
    simp only [urlPathRun, List.nil_append]
    rw [if_pos (by decide)]
    rw [urlCloseSeg_pat (hpat s (by simp)) path true]
    rw [urlPathRun_segs (s2 :: rest) (by simp)
      (fun t ht c hc => hpat t (by simp [ht]) c hc) (path ++ [s])]
    simp

theorem urlPathnameL_segs {segs : List (List Char)} (hne : segs ≠ [])
    (hpat : ∀ s ∈ segs, ∀ c ∈ s, isPatChar c = true) :
    urlPathnameL (Char.ofNat 47 :: intercalateChar '/' segs) =
      Char.ofNat 47 :: intercalateChar '/' segs := by
  have h47 : (Char.ofNat 47).toNat = 47 := charToNat_ofNat (by omega)
  have hchars : ∀ c ∈ Char.ofNat 47 :: intercalateChar '/' segs, 32 < c.toNat := by
    intro c hc
    rcases List.mem_cons.mp hc with rfl | hc
    · omega
    · rcases mem_intercalateChar hc with rfl | ⟨w, hw, hcw⟩
      · decide
      · have := isPatChar_iff.mp (hpat w hw c hcw)
        omega
  simp only [urlPathnameL]
  rw [urlTrim_id hchars]
  simp only [h47]
  rw [if_pos (by simp)]
  rw [urlPathRun_segs segs hne hpat []]
  simp

/-! ## The permalink pattern for markdown items -/

theorem filter_empty_split {segs : List (List Char)}
    (hmid : ∀ s ∈ segs.dropLast, s ≠ []) :
    segs = segs.filter (· ≠ []) ∨ segs = segs.filter (· ≠ []) ++ [[]] := by
  rcases List.eq_nil_or_concat segs with rfl | ⟨init, last, hs⟩
  · left
    rfl
  · rw [List.concat_eq_append] at hs
    subst hs
    have hi : init.filter (· ≠ []) = init := by
      rw [List.filter_eq_self]
      intro a ha
      have := hmid a (by simpa using ha)
      simpa using this
    by_cases hl : last = []
    · subst hl
      right
      rw [List.filter_append, hi]
      have e : ([([] : List Char)]).filter (· ≠ []) = [] := rfl
      rw [e, List.append_nil]
    · left
      rw [List.filter_append, hi]
      have e : ([last]).filter (· ≠ []) = [last] := by
        simp [hl]
      rw [e]

theorem patSegsOk_concat_empty : ∀ {S : List (List Char)},
    (∀ s ∈ S, s ≠ [] ∧ s.all isPatChar = true) → patSegsOk (S ++ [[]]) = true
  | [], _ => by decide
  | s :: S, h => by
    have e : (s :: S) ++ [[]] = s :: (S ++ [[]]) := rfl
    rw [e, patSegsOk, if_neg (by simp)]
    have h1 := h s (by simp)
    have h2 := patSegsOk_concat_empty (S := S) (fun t ht => h t (by simp [ht]))
    simp only [Bool.and_eq_true, decide_eq_true_eq]
    exact ⟨⟨h1.1, h1.2⟩, h2⟩

theorem patOk_dirPermalink {segs : List (List Char)}
    (hpat : ∀ s ∈ segs, ∀ c ∈ s, isPatChar c = true) :
    permalinkPatOkL (dirPermalinkL segs) = true := by
  simp only [dirPermalinkL]
  by_cases h : segs.filter (· ≠ []) = []
  · rw [if_pos h]
    decide
  · rw [if_neg h]
    have hmem : ∀ s ∈ segs.filter (· ≠ []), s ≠ [] ∧ s.all isPatChar = true := by
      intro s hs
      refine ⟨by simpa using List.of_mem_filter hs, ?_⟩
      rw [List.all_eq_true]
      exact fun c hc => hpat s (List.mem_of_mem_filter hs) c hc
    have e : intercalateChar '/' (segs.filter (· ≠ [])) ++ [Char.ofNat 47] =
        intercalateChar '/' (segs.filter (· ≠ []) ++ [[]]) := by
      rw [intercalateChar_append h (by simp)]
      have e2 : intercalateChar '/' [([] : List Char)] = [] := rfl
      rw [e2]
    rw [permalinkPatOkL]
    have h47 : (Char.ofNat 47).toNat = 47 := charToNat_ofNat (by omega)
    rw [e, splitSeg_intercalate
      (by
        intro s hs c hc
        rcases List.mem_append.mp hs with hs | hs
        · have hp := (List.all_eq_true.mp (hmem s hs).2) c hc
          have := isPatChar_iff.mp hp
          omega
        · simp at hs
          subst hs
          simp at hc)
      (by simp)]
    simp only [h47, decide_eq_true_eq]
    rw [patSegsOk_concat_empty hmem]
    simp

theorem ne_slash_of_pat {c : Char} (h : isPatChar c = true) : c ≠ Char.ofNat 47 := by
  intro he
  have h47 : (Char.ofNat 47).toNat = 47 := charToNat_ofNat (by omega)
  have := isPatChar_iff.mp h
  rw [he, h47] at this
  omega

/-- For a markdown source path (lowercased extension `.md`), the generated
permalink is exactly the directory-style URL of the code's segment list,
provided the segments use the pattern alphabet and only the last may be
empty. -/
theorem generatePermalink_md_eq (cfg : SiteConfig) (rel : String) (fm : FrontMatter)
    (it : ItemType)
    (hext : (pathExtnameL rel.data).map Char.toLower = ".md".data)
    (hmid : ∀ s ∈ (permSegsOf cfg rel fm it).dropLast, s ≠ [])
    (hpat : ∀ s ∈ permSegsOf cfg rel fm it, ∀ c ∈ s, isPatChar c = true) :
    (generatePermalink cfg rel fm it).data = dirPermalinkL (permSegsOf cfg rel fm it) := by
  obtain ⟨segs, hsegs⟩ : ∃ s, permSegsOf cfg rel fm it = s := ⟨_, rfl⟩
  rw [hsegs] at hmid hpat
  simp only [generatePermalink]
  rw [hsegs]
  by_cases h0 : segs.filter (· ≠ []) = []
  · have hc2 : segs = [] ∨ segs = [[]] := by
      rcases filter_empty_split hmid with hsp | hsp
      · rw [h0] at hsp
        exact Or.inl hsp
      · rw [h0] at hsp
        exact Or.inr hsp
    have hpn : urlPathnameL [Char.ofNat 47] = [Char.ofNat 47] := by decide
    rcases hc2 with hc2 | hc2 <;>
    · rw [hc2]
      have e1 : intercalateChar '/' ([] : List (List Char)) = [] := rfl
      have e2 : intercalateChar '/' [([] : List Char)] = [] := rfl
      first
      | rw [e1] | rw [e2]
      rw [if_neg (by simp : ¬(([] : List Char).head? = some (Char.ofNat 47)))]
      rw [if_neg (fun h => h.1 hpn), if_neg (fun h => h.1 hpn)]
      exact hpn.trans (by decide)
  · have hssne : ∀ s ∈ segs.filter (· ≠ []), s ≠ [] := by
      intro s hs
      simpa using List.of_mem_filter hs
    have hsspat : ∀ s ∈ segs.filter (· ≠ []), ∀ c ∈ s, isPatChar c = true :=
      fun s hs c hc => hpat s (List.mem_of_mem_filter hs) c hc
    have hidem : (segs.filter (· ≠ [])).filter (· ≠ []) = segs.filter (· ≠ []) :=
      List.filter_eq_self.mpr (fun a ha => by simpa using hssne a ha)
    have hic : intercalateChar '/' (segs.filter (· ≠ [])) ≠ [] :=
      intercalateChar_ne_nil h0 hssne
    obtain ⟨hcH, hcHmem, hcHpat⟩ := head?_intercalateChar_pat h0 hssne hsspat
    rcases filter_empty_split hmid with hsp | hsp
    · -- no empty segment at all
      rw [hsp]
      have hneH : ¬((intercalateChar '/' (segs.filter (· ≠ []))).head? =
          some (Char.ofNat 47)) := by
        rw [hcHmem]
        intro he
        injection he with h2
        exact ne_slash_of_pat hcHpat h2
      rw [if_neg hneH]
      rw [@urlPathnameL_segs (segs.filter (· ≠ [])) h0 hsspat]
      have hneP : Char.ofNat 47 :: intercalateChar '/' (segs.filter (· ≠ [])) ≠
          [Char.ofNat 47] := by
        intro he
        injection he with h1 h2
        exact hic h2
      rw [if_pos ⟨hneP, Or.inr hext⟩]
      obtain ⟨d, hd, hdp⟩ := getLast?_intercalateChar_pat h0 hssne hsspat
      have eL : (Char.ofNat 47 :: intercalateChar '/' (segs.filter (· ≠ []))).getLast? =
          (intercalateChar '/' (segs.filter (· ≠ []))).getLast? := by
        cases hi : intercalateChar '/' (segs.filter (· ≠ [])) with
        | nil => exact absurd hi hic
        | cons x xs => simp
      rw [if_pos (by
        rw [eL, hd]
        intro he
        injection he with h2
        exact ne_slash_of_pat hdp h2)]
      rw [dirPermalinkL]
      rw [hidem, if_neg h0]
      rfl
    · -- trailing empty segment
      rw [hsp]
      have eJ : intercalateChar '/' (segs.filter (· ≠ []) ++ [[]]) =
          intercalateChar '/' (segs.filter (· ≠ [])) ++ [Char.ofNat 47] := by
        rw [intercalateChar_append h0 (by simp)]
        rfl
      rw [eJ]
      have hneH2 : ¬((intercalateChar '/' (segs.filter (· ≠ [])) ++
          [Char.ofNat 47]).head? = some (Char.ofNat 47)) := by
        rw [List.head?_append, hcHmem]
        intro he
        simp only [Option.or_some] at he
        injection he with h2
        exact ne_slash_of_pat hcHpat h2
      rw [if_neg hneH2]
      have hp := @urlPathnameL_segs (segs.filter (· ≠ []) ++ [[]]) (by simp)
        (by
          intro s hs c hc
          rcases List.mem_append.mp hs with hs | hs
          · exact hsspat s hs c hc
          · simp at hs
            subst hs
            simp at hc)
      rw [eJ] at hp
      rw [hp]
      have hneP : Char.ofNat 47 ::
          (intercalateChar '/' (segs.filter (· ≠ [])) ++ [Char.ofNat 47]) ≠
          [Char.ofNat 47] := by
        intro he
        injection he with h1 h2
        simp at h2
      rw [if_pos ⟨hneP, Or.inr hext⟩]
      have eL : (Char.ofNat 47 ::
          (intercalateChar '/' (segs.filter (· ≠ [])) ++ [Char.ofNat 47])).getLast? =
          some (Char.ofNat 47) := by
        have e : Char.ofNat 47 ::
            (intercalateChar '/' (segs.filter (· ≠ [])) ++ [Char.ofNat 47]) =
            (Char.ofNat 47 :: intercalateChar '/' (segs.filter (· ≠ []))) ++
              [Char.ofNat 47] := rfl
        rw [e, List.getLast?_concat]
      rw [if_neg (fun hne => hne eL)]
      rw [dirPermalinkL]
      rw [List.filter_append, hidem]
      have e : ([([] : List Char)]).filter (· ≠ []) = [] := rfl
      rw [e, List.append_nil, if_neg h0]

/-! ## processItem inversion -/

theorem processItemRest_some_spec {cfg : SiteConfig} {f : SourceFile} {it : ItemType}
    {fm : FrontMatter} {raw html : String} {item : ContentItem}
    (h : processItemRest cfg f it fm raw html = some item) :
    item.relativePath = pathRelative cfg.paths.source f.path ∧
    item.frontMatter = fm ∧
    item.permalink = generatePermalink cfg item.relativePath item.frontMatter it ∧
    item.outputPath = generateOutputPath cfg item.permalink ∧
    item.isDraft = decide (it = ItemType.draft) ∧
    item.fileType = (if (pathExtnameL f.path.data).map Char.toLower = ".md".data
      then FileTypeTag.markdown else FileTypeTag.html) := by
  simp only [processItemRest] at h
  split at h
  · exact absurd h (by simp)
  · split at h
    · split at h
      · rw [Option.some_inj] at h
        subst h
        simp
      · exact absurd h (by simp)
    · rw [Option.some_inj] at h
      subst h
      simp

theorem processItem_some_parse {cfg : SiteConfig} {f : SourceFile} {it : ItemType}
    {item : ContentItem} (h : processItem cfg f it = some item) :
    ∃ fm raw html, itemFrontMatter f = some fm ∧
      processItemRest cfg f it fm raw html = some item := by
  simp only [processItem] at h
  by_cases hft : (pathExtnameL f.path.data).map Char.toLower = ".md".data
  · rw [if_pos hft] at h
    cases hmd : f.mdParse with
    | none => rw [hmd] at h; simp at h
    | some pm =>
      rw [hmd] at h
      simp only [Option.map_some'] at h
      exact ⟨pm.frontMatter, pm.markdownContent, pm.htmlContent,
        by rw [itemFrontMatter, if_pos hft, hmd]; rfl, h⟩
  · rw [if_neg hft] at h
    cases hht : f.htmlRead with
    | none => rw [hht] at h; simp at h
    | some raw =>
      rw [hht] at h
      simp only [Option.map_some'] at h
      exact ⟨{}, raw, raw,
        by rw [itemFrontMatter, if_neg hft, hht]; rfl, h⟩

theorem processItem_some_spec {cfg : SiteConfig} {f : SourceFile} {it : ItemType}
    {item : ContentItem} (h : processItem cfg f it = some item) :
    item.relativePath = pathRelative cfg.paths.source f.path ∧
    item.permalink = generatePermalink cfg item.relativePath item.frontMatter it ∧
    item.outputPath = generateOutputPath cfg item.permalink ∧
    item.isDraft = decide (it = ItemType.draft) ∧
    item.fileType = (if (pathExtnameL f.path.data).map Char.toLower = ".md".data
      then FileTypeTag.markdown else FileTypeTag.html) := by
  obtain ⟨fm, raw, html, _, hrest⟩ := processItem_some_parse h
  obtain ⟨h1, _, h3, h4, h5, h6⟩ := processItemRest_some_spec hrest
  exact ⟨h1, h3, h4, h5, h6⟩

theorem processItem_post_not_md {cfg : SiteConfig} {f : SourceFile}
    (hft : ¬((pathExtnameL f.path.data).map Char.toLower = ".md".data)) :
    processItem cfg f .post = none := by
  simp only [processItem]
  rw [if_neg hft]
  cases hht : f.htmlRead with
  | none => rfl
  | some raw =>
    simp [processItemRest]

theorem processItem_published_none {cfg : SiteConfig} {f : SourceFile} {it : ItemType}
    {fm : FrontMatter} (hfm : itemFrontMatter f = some fm)
    (hpub : fm.published = .boolVal false) (hdr : it ≠ .draft) :
    processItem cfg f it = none := by
  have hrest : ∀ raw html, processItemRest cfg f it fm raw html = none := by
    intro raw html
    simp only [processItemRest]
    rw [if_pos ⟨hpub, by simp [hdr]⟩]
  simp only [processItem]
  rw [itemFrontMatter] at hfm
  by_cases hft : (pathExtnameL f.path.data).map Char.toLower = ".md".data
  · rw [if_pos hft]
    rw [if_pos hft] at hfm
    cases hmd : f.mdParse with
    | none => rfl
    | some pm =>
      rw [hmd] at hfm
      simp only [Option.map_some', Option.some_inj] at hfm
      simp only [Option.map_some']
      rw [hfm]
      exact hrest pm.markdownContent pm.htmlContent
  · rw [if_neg hft]
    rw [if_neg hft] at hfm
    cases hht : f.htmlRead with
    | none => rfl
    | some raw =>
      rw [hht] at hfm
      simp only [Option.map_some', Option.some_inj] at hfm
      simp only [Option.map_some']
      rw [hfm]
      exact hrest raw raw

theorem processItem_post_no_date_none {cfg : SiteConfig} {f : SourceFile}
    {fm : FrontMatter} (hfm : itemFrontMatter f = some fm)
    (hdate : ∀ t : Int, fm.date ≠ .dateObj (some t)) :
    processItem cfg f .post = none := by
  have hrest : ∀ raw html, processItemRest cfg f .post fm raw html = none := by
    intro raw html
    simp only [processItemRest]
    split
    · rfl
    · cases hd : fm.date with
      | undef => simp
      | nonDate b => simp
      | dateObj t =>
        cases t with
        | none => simp
        | some t0 => exact absurd hd (hdate t0)
  simp only [processItem]
  rw [itemFrontMatter] at hfm
  by_cases hft : (pathExtnameL f.path.data).map Char.toLower = ".md".data
  · rw [if_pos hft]
    rw [if_pos hft] at hfm
    cases hmd : f.mdParse with
    | none => rfl
    | some pm =>
      rw [hmd] at hfm
      simp only [Option.map_some', Option.some_inj] at hfm
      simp only [Option.map_some']
      rw [hfm]
      exact hrest pm.markdownContent pm.htmlContent
  · rw [if_neg hft]
    rw [if_neg hft] at hfm
    cases hht : f.htmlRead with
    | none => rfl
    | some raw =>
      rw [hht] at hfm
      simp only [Option.map_some', Option.some_inj] at hfm
      simp only [Option.map_some']
      rw [hfm]
      exact hrest raw raw

theorem processItem_draft_some {cfg : SiteConfig} {f : SourceFile} {fm : FrontMatter}
    (hfm : itemFrontMatter f = some fm) :
    ∃ item, processItem cfg f .draft = some item ∧ item.isDraft = true := by
  have hrest : ∀ raw html, ∃ item,
      processItemRest cfg f .draft fm raw html = some item ∧ item.isDraft = true := by
    intro raw html
    simp only [processItemRest]
    rw [if_neg (by simp)]
    rw [if_neg (by decide)]
    exact ⟨_, rfl, rfl⟩
  simp only [processItem]
  rw [itemFrontMatter] at hfm
  by_cases hft : (pathExtnameL f.path.data).map Char.toLower = ".md".data
  · rw [if_pos hft]
    rw [if_pos hft] at hfm
    cases hmd : f.mdParse with
    | none => rw [hmd] at hfm; simp at hfm
    | some pm =>
      rw [hmd] at hfm
      simp only [Option.map_some', Option.some_inj] at hfm
      simp only [Option.map_some']
      rw [hfm]
      exact hrest pm.markdownContent pm.htmlContent
  · rw [if_neg hft]
    rw [if_neg hft] at hfm
    cases hht : f.htmlRead with
    | none => rw [hht] at hfm; simp at hfm
    | some raw =>
      rw [hht] at hfm
      simp only [Option.map_some', Option.some_inj] at hfm
      simp only [Option.map_some']
      rw [hfm]
      exact hrest raw raw

/-! ## The processing loop -/

theorem processStep_eq_self {cfg : SiteConfig} {acc : SiteContent} {f : SourceFile}
    (h : ∀ rt, classifyRaw cfg f.path = some rt →
      processItem cfg f rt.toItemType = none) :
    processStep cfg acc f = acc := by
  simp only [processStep]
  split
  · rfl
  · rename_i rt hc
    rw [h rt hc]

theorem collectContent_skip {cfg : SiteConfig} (l₁ l₂ : List SourceFile)
    {f : SourceFile} (h : ∀ acc, processStep cfg acc f = acc) :
    collectContent cfg (l₁ ++ f :: l₂) = collectContent cfg (l₁ ++ l₂) := by
  simp only [collectContent, List.foldl_append, List.foldl_cons]
  rw [h]

theorem processContent_skip {cfg : SiteConfig} (l₁ l₂ : List SourceFile)
    {f : SourceFile} (h : ∀ acc, processStep cfg acc f = acc) :
    processContent cfg (l₁ ++ f :: l₂) = processContent cfg (l₁ ++ l₂) := by
  simp only [processContent]
  rw [collectContent_skip l₁ l₂ h]

theorem drafts_subset_processStep {cfg : SiteConfig} {acc : SiteContent}
    {f : SourceFile} : acc.drafts ⊆ (processStep cfg acc f).drafts := by
  simp only [processStep]
  split
  · exact List.Subset.refl _
  · split
    · exact List.Subset.refl _
    · split
      · exact List.subset_append_left _ _
      · split
        · exact List.Subset.refl _
        · exact List.Subset.refl _

theorem drafts_subset_foldl {cfg : SiteConfig} : ∀ (l : List SourceFile) (acc : SiteContent),
    acc.drafts ⊆ (l.foldl (processStep cfg) acc).drafts
  | [], _ => List.Subset.refl _
  | f :: l, acc => by
    rw [List.foldl_cons]
    exact fun x hx => drafts_subset_foldl l _ (drafts_subset_processStep hx)

theorem mem_foldl_posts {cfg : SiteConfig} :
    ∀ {files : List SourceFile} {acc : SiteContent} {item : ContentItem},
    item ∈ (files.foldl (processStep cfg) acc).posts →
    item ∈ acc.posts ∨ ∃ f ∈ files, classifyRaw cfg f.path = some .post ∧
      processItem cfg f .post = some item
  | [], _, _, h => Or.inl h
  | f :: files, acc, item, h => by
    rw [List.foldl_cons] at h
    rcases @mem_foldl_posts cfg files _ _ h with h2 | ⟨g, hg, hcls, hpi⟩
    · simp only [processStep] at h2
      split at h2
      · exact Or.inl h2
      · rename_i rt hc
        split at h2
        · exact Or.inl h2
        · rename_i it2 hp
          split at h2
          · exact Or.inl (by simpa using h2)
          · split at h2
            · rename_i hrt
              subst hrt
              rcases (by simpa using h2 : item ∈ acc.posts ∨ item = it2) with h3 | h3
              · exact Or.inl h3
              · subst h3
                exact Or.inr ⟨f, by simp, hc, hp⟩
            · exact Or.inl (by simpa using h2)
    · exact Or.inr ⟨g, by simp [hg], hcls, hpi⟩

theorem mem_foldl_pages {cfg : SiteConfig} :
    ∀ {files : List SourceFile} {acc : SiteContent} {item : ContentItem},
    item ∈ (files.foldl (processStep cfg) acc).pages →
    item ∈ acc.pages ∨ ∃ f ∈ files, ∃ rt, classifyRaw cfg f.path = some rt ∧
      rt ≠ .post ∧ processItem cfg f rt.toItemType = some item ∧ item.isDraft = false
  | [], _, _, h => Or.inl h
  | f :: files, acc, item, h => by
    rw [List.foldl_cons] at h
    rcases @mem_foldl_pages cfg files _ _ h with h2 | ⟨g, hg, rt, hcls, hrt, hpi, hdr⟩
    · simp only [processStep] at h2
      split at h2
      · exact Or.inl h2
      · rename_i rt hc
        split at h2
        · exact Or.inl h2
        · rename_i it2 hp
          split at h2
          · exact Or.inl (by simpa using h2)
          · rename_i hdr2
            split at h2
            · exact Or.inl (by simpa using h2)
            · rename_i hrt2
              rcases (by simpa using h2 : item ∈ acc.pages ∨ item = it2) with h3 | h3
              · exact Or.inl h3
              · subst h3
                exact Or.inr ⟨f, by simp, rt, hc, hrt2, hp,
                  by simpa using hdr2⟩
    · exact Or.inr ⟨g, by simp [hg], rt, hcls, hrt, hpi, hdr⟩

theorem mem_foldl_drafts {cfg : SiteConfig} :
    ∀ {files : List SourceFile} {acc : SiteContent} {item : ContentItem},
    item ∈ (files.foldl (processStep cfg) acc).drafts →
    item ∈ acc.drafts ∨ ∃ f ∈ files, ∃ rt, classifyRaw cfg f.path = some rt ∧
      processItem cfg f rt.toItemType = some item ∧ item.isDraft = true
  | [], _, _, h => Or.inl h
  | f :: files, acc, item, h => by
    rw [List.foldl_cons] at h
    rcases @mem_foldl_drafts cfg files _ _ h with h2 | ⟨g, hg, rt, hcls, hpi, hdr⟩
    · simp only [processStep] at h2
      split at h2
      · exact Or.inl h2
      · rename_i rt hc
        split at h2
        · exact Or.inl h2
        · rename_i it2 hp
          split at h2
          · rename_i hdr2
            rcases (by simpa using h2 : item ∈ acc.drafts ∨ item = it2) with h3 | h3
            · exact Or.inl h3
            · subst h3
              exact Or.inr ⟨f, by simp, rt, hc, hp, hdr2⟩
          · split at h2
            · exact Or.inl (by simpa using h2)
            · exact Or.inl (by simpa using h2)
    · exact Or.inr ⟨g, by simp [hg], rt, hcls, hpi, hdr⟩

/-! ## The sort comparators -/

theorem charListLeB_total : ∀ (a b : List Char),
    charListLeB a b = true ∨ charListLeB b a = true
  | [], _ => Or.inl rfl
  | _ :: _, [] => Or.inr rfl
  | a :: as, b :: bs => by
    simp only [charListLeB]
    rcases Nat.lt_trichotomy a.toNat b.toNat with h | h | h
    · left
      rw [if_pos h]
    · rw [if_neg (by omega), if_neg (by omega), if_neg (by omega), if_neg (by omega)]
      exact charListLeB_total as bs
    · right
      rw [if_pos h]

theorem charListLeB_trans : ∀ (a b c : List Char),
    charListLeB a b = true → charListLeB b c = true → charListLeB a c = true
  | [], _, _, _, _ => rfl
  | _ :: _, [], _, h1, _ => by simp [charListLeB] at h1
  | _ :: _, _ :: _, [], _, h2 => by simp [charListLeB] at h2
  | a :: as, b :: bs, c :: cs, h1, h2 => by
    simp only [charListLeB] at h1 h2 ⊢
    by_cases hab : a.toNat < b.toNat
    · by_cases hbc : b.toNat < c.toNat
      · rw [if_pos (by omega)]
      · rw [if_neg hbc] at h2
        by_cases hcb : c.toNat < b.toNat
        · rw [if_pos hcb] at h2
          exact absurd h2 (by simp)
        · rw [if_pos (by omega)]
    · rw [if_neg hab] at h1
      by_cases hba : b.toNat < a.toNat
      · rw [if_pos hba] at h1
        exact absurd h1 (by simp)
      · rw [if_neg hba] at h1
        by_cases hbc : b.toNat < c.toNat
        · rw [if_pos (by omega)]
        · rw [if_neg hbc] at h2
          by_cases hcb : c.toNat < b.toNat
          · rw [if_pos hcb] at h2
            exact absurd h2 (by simp)
          · rw [if_neg hcb] at h2
            rw [if_neg (by omega), if_neg (by omega)]
            exact charListLeB_trans as bs cs h1 h2

theorem natListCmp_eq_iff : ∀ (a b : List Nat), natListCmp a b = .eq ↔ a = b
  | [], [] => by simp [natListCmp]
  | [], _ :: _ => by simp [natListCmp]
  | _ :: _, [] => by simp [natListCmp]
  | x :: xs, y :: ys => by
    have ih := natListCmp_eq_iff xs ys
    simp only [natListCmp]
    rcases Nat.lt_trichotomy x y with h | h | h
    · rw [if_pos h]
      constructor
      · intro he
        exact absurd he (by simp)
      · intro he
        injection he with h1 h2
        omega
    · subst h
      rw [if_neg (lt_irrefl x), if_neg (lt_irrefl x)]
      constructor
      · intro he
        rw [ih.1 he]
      · intro he
        injection he with h1 h2
        exact ih.2 h2
    · rw [if_neg (by omega), if_pos h]
      constructor
      · intro he
        exact absurd he (by simp)
      · intro he
        injection he with h1 h2
        omega

theorem natListCmp_gt_iff_lt : ∀ (a b : List Nat),
    natListCmp a b = .gt ↔ natListCmp b a = .lt
  | [], [] => by simp [natListCmp]
  | [], _ :: _ => by simp [natListCmp]
  | _ :: _, [] => by simp [natListCmp]
  | x :: xs, y :: ys => by
    have ih := natListCmp_gt_iff_lt xs ys
    simp only [natListCmp]
    rcases Nat.lt_trichotomy x y with h | h | h
    · rw [if_pos h, if_neg (by omega), if_pos h]
      simp
    · subst h
      rw [if_neg (lt_irrefl x), if_neg (lt_irrefl x), if_neg (lt_irrefl x),
        if_neg (lt_irrefl x)]
      exact ih
    · rw [if_neg (by omega), if_pos h, if_pos h]
      simp

theorem natListCmp_lt_trans : ∀ (a b c : List Nat),
    natListCmp a b = .lt → natListCmp b c = .lt → natListCmp a c = .lt
  | [], [], _, h1, _ => by simp [natListCmp] at h1
  | [], _ :: _, [], _, h2 => by simp [natListCmp] at h2
  | [], _ :: _, _ :: _, _, _ => by simp [natListCmp]
  | _ :: _, [], _, h1, _ => by simp [natListCmp] at h1
  | _ :: _, _ :: _, [], _, h2 => by simp [natListCmp] at h2
  | x :: xs, y :: ys, z :: zs, h1, h2 => by
    have ih := natListCmp_lt_trans xs ys zs
    simp only [natListCmp] at h1 h2 ⊢
    by_cases hxy : x < y
    · by_cases hyz : y < z
      · rw [if_pos (by omega)]
      · rw [if_neg hyz] at h2
        by_cases hzy : z < y
        · rw [if_pos hzy] at h2
          exact absurd h2 (by simp)
        · rw [if_pos (by omega)]
    · rw [if_neg hxy] at h1
      by_cases hyx : y < x
      · rw [if_pos hyx] at h1
        exact absurd h1 (by simp)
      · rw [if_neg hyx] at h1
        by_cases hyz : y < z
        · rw [if_pos (by omega)]
        · rw [if_neg hyz] at h2
          by_cases hzy : z < y
          · rw [if_pos hzy] at h2
            exact absurd h2 (by simp)
          · rw [if_neg hzy] at h2
            rw [if_neg (by omega), if_neg (by omega)]
            exact ih h1 h2

theorem icuLeB_true_iff (a b : List Char) :
    icuLeB a b = true ↔
      (natListCmp (a.map icuPrimary) (b.map icuPrimary) = .lt ∨
       (natListCmp (a.map icuPrimary) (b.map icuPrimary) = .eq ∧
        natListCmp (a.map icuTertiary) (b.map icuTertiary) ≠ .gt)) := by
  cases h : natListCmp (a.map icuPrimary) (b.map icuPrimary) <;>
    cases h2 : natListCmp (a.map icuTertiary) (b.map icuTertiary) <;>
      simp [icuLeB, h, h2]

theorem icuLeB_total (a b : List Char) : icuLeB a b = true ∨ icuLeB b a = true := by
  cases h : natListCmp (a.map icuPrimary) (b.map icuPrimary) with
  | lt => exact Or.inl ((icuLeB_true_iff a b).2 (Or.inl h))
  | gt => exact Or.inr ((icuLeB_true_iff b a).2 (Or.inl ((natListCmp_gt_iff_lt _ _).1 h)))
  | eq =>
    have hpe : (a.map icuPrimary) = (b.map icuPrimary) := (natListCmp_eq_iff _ _).1 h
    have hpe2 : natListCmp (b.map icuPrimary) (a.map icuPrimary) = .eq :=
      (natListCmp_eq_iff _ _).2 hpe.symm
    cases h3 : natListCmp (a.map icuTertiary) (b.map icuTertiary) with
    | gt =>
      refine Or.inr ((icuLeB_true_iff b a).2 (Or.inr ⟨hpe2, ?_⟩))
      have h4 := (natListCmp_gt_iff_lt _ _).1 h3
      rw [h4]
      simp
    | lt => exact Or.inl ((icuLeB_true_iff a b).2 (Or.inr ⟨h, by simp [h3]⟩))
    | eq => exact Or.inl ((icuLeB_true_iff a b).2 (Or.inr ⟨h, by simp [h3]⟩))

theorem icuLeB_trans (a b c : List Char) (h1 : icuLeB a b = true)
    (h2 : icuLeB b c = true) : icuLeB a c = true := by
  rw [icuLeB_true_iff] at h1 h2 ⊢
  rcases h1 with h1 | ⟨h1e, h1t⟩
  · rcases h2 with h2 | ⟨h2e, h2t⟩
    · exact Or.inl (natListCmp_lt_trans _ _ _ h1 h2)
    · have hbc := (natListCmp_eq_iff _ _).1 h2e
      rw [← hbc]
      exact Or.inl h1
  · have hab := (natListCmp_eq_iff _ _).1 h1e
    rcases h2 with h2 | ⟨h2e, h2t⟩
    · rw [hab]
      exact Or.inl h2
    · have hbc := (natListCmp_eq_iff _ _).1 h2e
      refine Or.inr ⟨(natListCmp_eq_iff _ _).2 (hab.trans hbc), ?_⟩
      cases h3 : natListCmp (a.map icuTertiary) (b.map icuTertiary) with
      | gt => exact absurd h3 h1t
      | eq =>
        have := (natListCmp_eq_iff _ _).1 h3
        rw [this]
        exact h2t
      | lt =>
        cases h4 : natListCmp (b.map icuTertiary) (c.map icuTertiary) with
        | gt => exact absurd h4 h2t
        | eq =>
          have := (natListCmp_eq_iff _ _).1 h4
          rw [← this, h3]
          simp
        | lt =>
          rw [natListCmp_lt_trans _ _ _ h3 h4]
          simp

theorem byteChar_primary (c : Char) (h : isByteOrderChar c = true) :
    (c.toNat = 45 ∧ icuPrimary c = 12) ∨ (c.toNat = 46 ∧ icuPrimary c = 18) ∨
    (c.toNat = 47 ∧ icuPrimary c = 29) ∨
    (48 ≤ c.toNat ∧ c.toNat ≤ 57 ∧ icuPrimary c = 50 + (c.toNat - 48)) ∨
    (97 ≤ c.toNat ∧ c.toNat ≤ 122 ∧ icuPrimary c = 100 + (c.toNat - 97)) := by
  simp only [isByteOrderChar, isAsciiDigit, isAsciiLower, Bool.or_eq_true,
    Bool.and_eq_true, decide_eq_true_eq] at h
  rcases h with (((h | h) | h) | ⟨h1, h2⟩) | ⟨h1, h2⟩
  · refine Or.inl ⟨h, ?_⟩
    have hc : c = Char.ofNat 45 := by
      have he := Char.ofNat_toNat c
      rw [h] at he
      exact he.symm
    subst hc
    decide
  · refine Or.inr (Or.inl ⟨h, ?_⟩)
    have hc : c = Char.ofNat 46 := by
      have he := Char.ofNat_toNat c
      rw [h] at he
      exact he.symm
    subst hc
    decide
  · refine Or.inr (Or.inr (Or.inl ⟨h, ?_⟩))
    have hc : c = Char.ofNat 47 := by
      have he := Char.ofNat_toNat c
      rw [h] at he
      exact he.symm
    subst hc
    decide
  · refine Or.inr (Or.inr (Or.inr (Or.inl ⟨h1, h2, ?_⟩)))
    simp only [icuPrimary]
    rw [if_neg (by simp [isAsciiLower]; omega), if_neg (by simp [isAsciiUpper]; omega),
      if_pos (by simp [isAsciiDigit]; omega)]
  · refine Or.inr (Or.inr (Or.inr (Or.inr ⟨h1, h2, ?_⟩)))
    simp only [icuPrimary]
    rw [if_pos (by simp [isAsciiLower]; omega)]

theorem byteChar_primary_lt (a b : Char) (ha : isByteOrderChar a = true)
    (hb : isByteOrderChar b = true) :
    icuPrimary a < icuPrimary b ↔ a.toNat < b.toNat := by
  rcases byteChar_primary a ha with h | h | h | h | h <;>
    rcases byteChar_primary b hb with g | g | g | g | g <;> omega

theorem char_eq_of_toNat_eq {x y : Char} (h : x.toNat = y.toNat) : x = y := by
  have h1 := Char.ofNat_toNat x
  have h2 := Char.ofNat_toNat y
  rw [← h1, ← h2, h]

theorem icuLeB_cons_same (x : Char) (xs ys : List Char) :
    icuLeB (x :: xs) (x :: ys) = icuLeB xs ys := by
  simp only [icuLeB, List.map_cons, natListCmp]
  rw [if_neg (lt_irrefl _), if_neg (lt_irrefl _), if_neg (lt_irrefl _),
    if_neg (lt_irrefl _)]

theorem charListLeB_cons_same (x : Char) (xs ys : List Char) :
    charListLeB (x :: xs) (x :: ys) = charListLeB xs ys := by
  simp only [charListLeB]
  rw [if_neg (lt_irrefl _), if_neg (lt_irrefl _)]

/-- On the lowercase slug alphabet the collation order and byte-wise order
agree. -/
theorem icuLeB_eq_byte : ∀ (a b : List Char),
    (∀ c ∈ a, isByteOrderChar c = true) → (∀ c ∈ b, isByteOrderChar c = true) →
    icuLeB a b = charListLeB a b
  | [], [], _, _ => rfl
  | [], _ :: _, _, _ => rfl
  | _ :: _, [], _, _ => rfl
  | x :: xs, y :: ys, ha, hb => by
    have hax := ha x (by simp)
    have hby := hb y (by simp)
    have ih := icuLeB_eq_byte xs ys (fun c hc => ha c (by simp [hc]))
      (fun c hc => hb c (by simp [hc]))
    rcases Nat.lt_trichotomy x.toNat y.toNat with h | h | h
    · have hp : icuPrimary x < icuPrimary y := (byteChar_primary_lt x y hax hby).2 h
      have hcmp : natListCmp (icuPrimary x :: xs.map icuPrimary)
          (icuPrimary y :: ys.map icuPrimary) = .lt := by
        simp only [natListCmp]
        rw [if_pos hp]
      have e1 : icuLeB (x :: xs) (y :: ys) = true := by
        simp only [icuLeB, List.map_cons]
        rw [hcmp]
      have e2 : charListLeB (x :: xs) (y :: ys) = true := by
        simp only [charListLeB]
        rw [if_pos h]
      rw [e1, e2]
    · have hxy : x = y := char_eq_of_toNat_eq h
      subst hxy
      rw [icuLeB_cons_same, charListLeB_cons_same]
      exact ih
    · have hp : icuPrimary y < icuPrimary x := (byteChar_primary_lt y x hby hax).2 h
      have hnp : ¬ icuPrimary x < icuPrimary y := by
        intro hc
        exact absurd ((byteChar_primary_lt x y hax hby).1 hc) (by omega)
      have hcmp : natListCmp (icuPrimary x :: xs.map icuPrimary)
          (icuPrimary y :: ys.map icuPrimary) = .gt := by
        simp only [natListCmp]
        rw [if_neg hnp, if_pos hp]
      have e1 : icuLeB (x :: xs) (y :: ys) = false := by
        simp only [icuLeB, List.map_cons]
        rw [hcmp]
      have e2 : charListLeB (x :: xs) (y :: ys) = false := by
        simp only [charListLeB]
        rw [if_neg (by omega), if_pos h]
      rw [e1, e2]

/-! ## Properties of the permalink segment computation -/

theorem permSlugOf_pat (rel : String) (fm : FrontMatter) (it : ItemType) :
    ∀ c ∈ permSlugOf rel fm it, isPatChar c = true := by
  simp only [permSlugOf]
  split
  · split
    · split <;> exact fun c hc => slugifyL_all_pat c hc
    · exact fun c hc => slugifyL_all_pat c hc
  · split <;> exact fun c hc => slugifyL_all_pat c hc

theorem permSegsOf_pat (cfg : SiteConfig) (rel : String) (fm : FrontMatter)
    (it : ItemType)
    (hdirs : it = .page → ∀ s ∈ (splitSeg (pathDirL rel.data)).filter (· ≠ []),
      ∀ c ∈ s, isPatChar c = true) :
    ∀ s ∈ permSegsOf cfg rel fm it, ∀ c ∈ s, isPatChar c = true := by
  intro s hs
  simp only [permSegsOf] at hs
  cases it with
  | post =>
    rw [if_pos rfl] at hs
    simp only [List.mem_cons, List.not_mem_nil, or_false] at hs
    rcases hs with rfl | rfl
    · decide
    · exact permSlugOf_pat rel fm .post
  | draft =>
    rw [if_neg (by decide), if_pos rfl] at hs
    simp only [List.mem_cons, List.not_mem_nil, or_false] at hs
    rcases hs with rfl | rfl
    · decide
    · exact permSlugOf_pat rel fm .draft
  | page =>
    rw [if_neg (by decide), if_neg (by decide)] at hs
    split at hs
    · exact hdirs rfl s (List.mem_of_mem_filter hs)
    · rcases List.mem_append.mp hs with hs | hs
      · exact hdirs rfl s (List.mem_of_mem_filter hs)
      · simp only [List.mem_singleton] at hs
        subst hs
        exact permSlugOf_pat rel fm .page

theorem permSegsOf_mid (cfg : SiteConfig) (rel : String) (fm : FrontMatter)
    (it : ItemType) :
    ∀ s ∈ (permSegsOf cfg rel fm it).dropLast, s ≠ [] := by
  intro s hs
  simp only [permSegsOf] at hs
  cases it with
  | post =>
    rw [if_pos rfl] at hs
    simp only [List.dropLast] at hs
    simp only [List.mem_singleton] at hs
    subst hs
    simp
  | draft =>
    rw [if_neg (by decide), if_pos rfl] at hs
    simp only [List.dropLast] at hs
    simp only [List.mem_singleton] at hs
    subst hs
    simp
  | page =>
    rw [if_neg (by decide), if_neg (by decide)] at hs
    have hdir : ∀ t ∈ ((splitSeg (pathDirL rel.data)).filter (· ≠ [])).filter
        (· ≠ pathBasenameL cfg.paths.pages.data), t ≠ [] := by
      intro t ht
      have := List.mem_of_mem_filter ht
      simpa using List.of_mem_filter this
    split at hs
    · exact hdir s (List.dropLast_subset _ hs)
    · rw [List.dropLast_concat] at hs
      exact hdir s hs

/-! ## Claim theorems -/

/-- C1 (counterexample): produced items can receive permalinks that neither
match the pattern nor equal `/`, in two ways. An item built from an `.html`
source gets no trailing slash: `pages/about.html` is produced into the pages
collection with permalink `/about`. And directory components are never
slugified, so even a `.md` page under an uppercase directory escapes the
pattern alphabet: `pages/Docs/about.md` is produced with permalink
`/Docs/about/`. -/
theorem c1_counterexample :
    ((processContent cfgEx [fileHtml "/site/pages/about.html"]).pages.map
        (fun i => i.permalink) = ["/about"] ∧
      permalinkPatOk "/about" = false ∧ ("/about" : String) ≠ "/") ∧
    ((processContent cfgEx [fileMd "/site/pages/Docs/about.md" {}]).pages.map
        (fun i => i.permalink) = ["/Docs/about/"] ∧
      permalinkPatOk "/Docs/about/" = false ∧ ("/Docs/about/" : String) ≠ "/") := by
  decide

/-- C1 (amended): every produced item whose source-relative path has the
(lowercased) extension `.md` and whose relative directory components consist
only of `[a-z0-9-]` characters has a permalink matching
`/^\/([a-z0-9-]+\/)*$/` (a pattern the bare `/` also matches). Items built
from `.html` sources are not covered: they can violate the pattern. -/
theorem c1_md_permalink_pattern (cfg : SiteConfig) (files : List SourceFile)
    (item : ContentItem)
    (hmem : item ∈ (processContent cfg files).posts ∨
      item ∈ (processContent cfg files).pages ∨
      item ∈ (processContent cfg files).drafts)
    (hext : (pathExtnameL item.relativePath.data).map Char.toLower = ".md".data)
    (hdirs : ∀ s ∈ (splitSeg (pathDirL item.relativePath.data)).filter (· ≠ []),
      ∀ c ∈ s, isPatChar c = true) :
    permalinkPatOk item.permalink = true := by
  have key : ∀ it : ItemType,
      item.permalink = generatePermalink cfg item.relativePath item.frontMatter it →
      permalinkPatOk item.permalink = true := by
    intro it hperm
    have hpat := permSegsOf_pat cfg item.relativePath item.frontMatter it
      (fun _ => hdirs)
    have hmid := permSegsOf_mid cfg item.relativePath item.frontMatter it
    rw [permalinkPatOk, hperm,
      generatePermalink_md_eq cfg item.relativePath item.frontMatter it hext hmid hpat]
    exact patOk_dirPermalink hpat
  rcases hmem with hm | hm | hm
  · simp only [processContent] at hm
    rw [List.mem_insertionSort] at hm
    simp only [collectContent] at hm
    rcases mem_foldl_posts hm with h | ⟨f, _, _, hpi⟩
    · simp at h
    · exact key .post (processItem_some_spec hpi).2.1
  · simp only [processContent] at hm
    rw [List.mem_insertionSort] at hm
    simp only [collectContent] at hm
    rcases mem_foldl_pages hm with h | ⟨f, _, rt, _, hrtne, hpi, hdr⟩
    · simp at h
    · have hit : rt.toItemType = .page := by
        cases rt with
        | post => exact absurd rfl hrtne
        | draft =>
          have h5 := (processItem_some_spec hpi).2.2.2.1
          rw [hdr] at h5
          simp [RawItemType.toItemType] at h5
        | page => rfl
        | rootPage => rfl
      rw [hit] at hpi
      exact key .page (processItem_some_spec hpi).2.1
  · simp only [processContent] at hm
    rw [List.mem_insertionSort] at hm
    simp only [collectContent] at hm
    rcases mem_foldl_drafts hm with h | ⟨f, _, rt, _, hpi, hdr⟩
    · simp at h
    · have hit : rt.toItemType = .draft := by
        have h5 := (processItem_some_spec hpi).2.2.2.1
        rw [hdr] at h5
        exact of_decide_eq_true h5.symm
      rw [hit] at hpi
      exact key .draft (processItem_some_spec hpi).2.1

/-- C1 (witness): the markdown page `pages/about.md` from the example run. -/
theorem c1_md_permalink_pattern_witness : permalinkPatOk c1item.permalink = true :=
  c1_md_permalink_pattern cfgEx filesC1 c1item (Or.inr (Or.inl (by decide)))
    (by decide) (by decide)

/-- C9 (code bug): any extension other than `.md` is classified as `html` and
processed as an html body; the skip branch for unsupported extensions is
unreachable. A `.txt` file handed to the builder is processed, not skipped. -/
theorem c9_unsupported_extension_processed_as_html :
    (if (pathExtnameL ("/site/pages/notes.txt" : String).data).map Char.toLower =
        ".md".data then FileTypeTag.markdown else FileTypeTag.html) =
      FileTypeTag.html ∧
    (processItem cfgEx { path := "/site/pages/notes.txt", htmlRead := some "body" }
        .page).map (fun i => (i.fileType, i.rawContent)) =
      some (FileTypeTag.html, "body") := by
  decide

/-- C10: every item in the posts collection has fileType `markdown`: a
non-`.md` file processed as a post receives the empty front matter, hence no
date, and is dropped — it lands in no collection. -/
theorem c10_posts_are_markdown (cfg : SiteConfig) (files : List SourceFile)
    (item : ContentItem) (l₁ l₂ : List SourceFile) (f : SourceFile) :
    (item ∈ (processContent cfg files).posts → item.fileType = .markdown) ∧
    ((pathExtnameL f.path.data).map Char.toLower ≠ ".md".data →
      processItem cfg f .post = none) ∧
    (classifyRaw cfg f.path = some .post →
      (pathExtnameL f.path.data).map Char.toLower ≠ ".md".data →
      processContent cfg (l₁ ++ f :: l₂) = processContent cfg (l₁ ++ l₂)) := by
  refine ⟨?_, ?_, ?_⟩
  · intro hm
    simp only [processContent] at hm
    rw [List.mem_insertionSort] at hm
    simp only [collectContent] at hm
    rcases mem_foldl_posts hm with h | ⟨g, _, _, hpi⟩
    · simp at h
    · have h6 := (processItem_some_spec hpi).2.2.2.2
      by_cases hft : (pathExtnameL g.path.data).map Char.toLower = ".md".data
      · rw [h6, if_pos hft]
      · rw [processItem_post_not_md hft] at hpi
        exact absurd hpi (by simp)
  · exact fun hft => processItem_post_not_md hft
  · intro hcls hft
    refine processContent_skip l₁ l₂ (fun acc => processStep_eq_self ?_)
    intro rt hrt
    have h2 := hcls.symm.trans hrt
    injection h2 with h2
    subst h2
    exact processItem_post_not_md hft

/-- C10 (witness): an html file under the posts root is dropped. -/
theorem c10_posts_are_markdown_witness :
    processItem cfgEx (fileHtml "/site/posts/raw.html") .post = none :=
  (c10_posts_are_markdown cfgEx [] dummyItem [] []
    (fileHtml "/site/posts/raw.html")).2.1 (by decide)

/-- C4: a post-classified file whose normalized front matter lacks a valid
date is dropped: `processItem` returns `none` and the run's result is as if
the file were absent, so the item appears in no collection and the rest of
the batch is unaffected. -/
theorem c4_post_without_date_dropped (cfg : SiteConfig) (l₁ l₂ : List SourceFile)
    (f : SourceFile) (fm : FrontMatter)
    (hcls : classifyRaw cfg f.path = some .post)
    (hfm : itemFrontMatter f = some fm)
    (hdate : ∀ t : Int, fm.date ≠ .dateObj (some t)) :
    processItem cfg f .post = none ∧
    processContent cfg (l₁ ++ f :: l₂) = processContent cfg (l₁ ++ l₂) := by
  have hnone := @processItem_post_no_date_none cfg _ _ hfm hdate
  refine ⟨hnone, processContent_skip l₁ l₂ (fun acc => processStep_eq_self ?_)⟩
  intro rt hrt
  have h2 := hcls.symm.trans hrt
  injection h2 with h2
  subst h2
  exact hnone

/-- C4 (witness): `posts/nodate.md` with empty front matter is dropped. -/
theorem c4_post_without_date_dropped_witness :
    processItem cfgEx fileC4 .post = none ∧
    processContent cfgEx ([] ++ fileC4 :: []) = processContent cfgEx ([] ++ []) :=
  c4_post_without_date_dropped cfgEx [] [] fileC4 {} (by decide) (by decide)
    (fun t h => DateField.noConfusion h)

theorem processStep_draft_eq {cfg : SiteConfig} {acc : SiteContent} {f : SourceFile}
    {item : ContentItem} (hcls : classifyRaw cfg f.path = some .draft)
    (hpi : processItem cfg f .draft = some item) (hdr : item.isDraft = true) :
    processStep cfg acc f = { acc with drafts := acc.drafts ++ [item] } := by
  simp only [processStep]
  split
  · rename_i hq
    rw [hcls] at hq
    exact absurd hq (by simp)
  · rename_i rt hq
    have h2 := hcls.symm.trans hq
    injection h2 with h2
    subst h2
    split
    · rename_i hq2
      simp only [RawItemType.toItemType] at hq2
      rw [hpi] at hq2
      exact absurd hq2 (by simp)
    · rename_i it2 hq2
      simp only [RawItemType.toItemType] at hq2
      have h3 := hpi.symm.trans hq2
      injection h3 with h3
      subst h3
      rw [if_pos hdr]

/-- C5: `published: false` drops exactly the non-draft items: a non-draft
classified file with that front matter produces nothing and the run is as if
the file were absent, while a draft-classified file is still built and placed
in the drafts collection regardless of its `published` flag. -/
theorem c5_publish_filter (cfg : SiteConfig) (l₁ l₂ : List SourceFile)
    (f : SourceFile) (fm : FrontMatter) :
    (∀ rt, classifyRaw cfg f.path = some rt → rt ≠ .draft →
      itemFrontMatter f = some fm → fm.published = .boolVal false →
      processItem cfg f rt.toItemType = none ∧
      processContent cfg (l₁ ++ f :: l₂) = processContent cfg (l₁ ++ l₂)) ∧
    (classifyRaw cfg f.path = some .draft → itemFrontMatter f = some fm →
      ∃ item, processItem cfg f .draft = some item ∧ item.isDraft = true ∧
        item ∈ (processContent cfg (l₁ ++ f :: l₂)).drafts) := by
  constructor
  · intro rt hcls hne hfm hpub
    have hdr : rt.toItemType ≠ .draft := by
      cases rt with
      | post => simp [RawItemType.toItemType]
      | draft => exact absurd rfl hne
      | page => simp [RawItemType.toItemType]
      | rootPage => simp [RawItemType.toItemType]
    have hnone := @processItem_published_none cfg _ _ _ hfm hpub hdr
    refine ⟨hnone, processContent_skip l₁ l₂ (fun acc => processStep_eq_self ?_)⟩
    intro rt2 hrt2
    have h2 := hcls.symm.trans hrt2
    injection h2 with h2
    subst h2
    exact hnone
  · intro hcls hfm
    obtain ⟨item, hpi, hdr⟩ := @processItem_draft_some cfg _ _ hfm
    refine ⟨item, hpi, hdr, ?_⟩
    simp only [processContent]
    rw [List.mem_insertionSort]
    simp only [collectContent, List.foldl_append, List.foldl_cons]
    refine drafts_subset_foldl l₂ _ ?_
    rw [processStep_draft_eq hcls hpi hdr]
    simp

/-- C5 (witness): a `published: false` page is dropped; a `published: false`
draft is built into the drafts collection. -/
theorem c5_publish_filter_witness :
    (processItem cfgEx fileC5page (RawItemType.page.toItemType) = none ∧
      processContent cfgEx ([] ++ fileC5page :: []) = processContent cfgEx ([] ++ [])) ∧
    (∃ item, processItem cfgEx fileC5draft .draft = some item ∧
      item.isDraft = true ∧
      item ∈ (processContent cfgEx ([] ++ fileC5draft :: [])).drafts) :=
  ⟨(c5_publish_filter cfgEx [] [] fileC5page fmUnpub).1 .page (by decide)
      (by decide) (by decide) (by decide),
   (c5_publish_filter cfgEx [] [] fileC5draft fmUnpub).2 (by decide) (by decide)⟩

/-- C6: the classification chain follows the priority order posts, drafts,
pages, root-level page, skip — and each loop iteration either leaves all
three collections unchanged or appends a single item to exactly one of
them, so a file's item never lands in two collections. -/
theorem c6_classification_priority (cfg : SiteConfig) (p : String)
    (acc : SiteContent) (f : SourceFile) :
    (jsStartsWith p cfg.paths.posts = true → classifyRaw cfg p = some .post) ∧
    (jsStartsWith p cfg.paths.posts = false →
      jsStartsWith p cfg.paths.drafts = true → classifyRaw cfg p = some .draft) ∧
    (jsStartsWith p cfg.paths.posts = false →
      jsStartsWith p cfg.paths.drafts = false →
      jsStartsWith p cfg.paths.pages = true → classifyRaw cfg p = some .page) ∧
    (jsStartsWith p cfg.paths.posts = false →
      jsStartsWith p cfg.paths.drafts = false →
      jsStartsWith p cfg.paths.pages = false →
      pathDirname p = cfg.paths.source → classifyRaw cfg p = some .rootPage) ∧
    (jsStartsWith p cfg.paths.posts = false →
      jsStartsWith p cfg.paths.drafts = false →
      jsStartsWith p cfg.paths.pages = false →
      pathDirname p ≠ cfg.paths.source → classifyRaw cfg p = none) ∧
    (processStep cfg acc f = acc ∨
      ∃ item, processStep cfg acc f = { acc with posts := acc.posts ++ [item] } ∨
        processStep cfg acc f = { acc with pages := acc.pages ++ [item] } ∨
        processStep cfg acc f = { acc with drafts := acc.drafts ++ [item] }) := by
  refine ⟨?_, ?_, ?_, ?_, ?_, ?_⟩
  · intro h1
    rw [classifyRaw, if_pos h1]
  · intro h1 h2
    rw [classifyRaw, if_neg (by simp [h1]), if_pos h2]
  · intro h1 h2 h3
    rw [classifyRaw, if_neg (by simp [h1]), if_neg (by simp [h2]), if_pos h3]
  · intro h1 h2 h3 h4
    rw [classifyRaw, if_neg (by simp [h1]), if_neg (by simp [h2]),
      if_neg (by simp [h3]), if_pos h4]
  · intro h1 h2 h3 h4
    rw [classifyRaw, if_neg (by simp [h1]), if_neg (by simp [h2]),
      if_neg (by simp [h3]), if_neg h4]
  · simp only [processStep]
    split
    · exact Or.inl rfl
    · split
      · exact Or.inl rfl
      · rename_i item hq
        split
        · exact Or.inr ⟨item, Or.inr (Or.inr rfl)⟩
        · split
          · exact Or.inr ⟨item, Or.inl rfl⟩
          · exact Or.inr ⟨item, Or.inr (Or.inl rfl)⟩

/-- C6 (witness): one path of each classification outcome, and the loop-step
shape for a concrete file. -/
theorem c6_classification_priority_witness :
    classifyRaw cfgEx "/site/posts/x.md" = some RawItemType.post ∧
    classifyRaw cfgEx "/site/drafts/y.md" = some RawItemType.draft ∧
    classifyRaw cfgEx "/site/pages/z.md" = some RawItemType.page ∧
    classifyRaw cfgEx "/site/root.md" = some RawItemType.rootPage ∧
    classifyRaw cfgEx "/elsewhere/deep/q.md" = none ∧
    (processStep cfgEx ⟨[], [], []⟩ (fileMd "/site/posts/b.md" (fmDate 5)) =
        (⟨[], [], []⟩ : SiteContent) ∨
      ∃ item, processStep cfgEx ⟨[], [], []⟩ (fileMd "/site/posts/b.md" (fmDate 5)) =
          { (⟨[], [], []⟩ : SiteContent) with posts := [] ++ [item] } ∨
        processStep cfgEx ⟨[], [], []⟩ (fileMd "/site/posts/b.md" (fmDate 5)) =
          { (⟨[], [], []⟩ : SiteContent) with pages := [] ++ [item] } ∨
        processStep cfgEx ⟨[], [], []⟩ (fileMd "/site/posts/b.md" (fmDate 5)) =
          { (⟨[], [], []⟩ : SiteContent) with drafts := [] ++ [item] }) :=
  ⟨(c6_classification_priority cfgEx "/site/posts/x.md" ⟨[], [], []⟩
      (fileMd "/site/posts/b.md" (fmDate 5))).1 (by decide),
   (c6_classification_priority cfgEx "/site/drafts/y.md" ⟨[], [], []⟩
      (fileMd "/site/posts/b.md" (fmDate 5))).2.1 (by decide) (by decide),
   (c6_classification_priority cfgEx "/site/pages/z.md" ⟨[], [], []⟩
      (fileMd "/site/posts/b.md" (fmDate 5))).2.2.1 (by decide) (by decide) (by decide),
   (c6_classification_priority cfgEx "/site/root.md" ⟨[], [], []⟩
      (fileMd "/site/posts/b.md" (fmDate 5))).2.2.2.1 (by decide) (by decide)
      (by decide) (by decide),
   (c6_classification_priority cfgEx "/elsewhere/deep/q.md" ⟨[], [], []⟩
      (fileMd "/site/posts/b.md" (fmDate 5))).2.2.2.2.1 (by decide) (by decide)
      (by decide) (by decide),
   (c6_classification_priority cfgEx "x" ⟨[], [], []⟩
      (fileMd "/site/posts/b.md" (fmDate 5))).2.2.2.2.2⟩

/-- C3 (counterexample): the pages output is not byte-wise sorted. The run
with page directories `Zebra` and `apple` (directory components are not
slugified, so their case survives into the permalinks) is ordered by the
collation comparator as `/apple/` before `/Zebra/` — the case-insensitive
primary level puts `a` before `Z` — while byte-wise order has `/Zebra/`
(code 90) strictly before `/apple/` (code 97). -/
theorem c3_counterexample :
    (processContent cfgEx filesC3b).pages.map (fun i => i.permalink) =
      ["/apple/", "/Zebra/"] ∧
    charListLeB ("/apple/" : String).data ("/Zebra/" : String).data = false ∧
    ¬ List.Pairwise (fun a b : ContentItem =>
        charListLeB a.permalink.data b.permalink.data = true)
      (processContent cfgEx filesC3b).pages := by
  refine ⟨by decide, by decide, ?_⟩
  intro hp
  have h2 : List.Pairwise (fun a b : ContentItem =>
      charListLeB a.permalink.data b.permalink.data = true)
      (processContent cfgEx filesC3b).pages → False := by
    decide
  exact h2 hp

/-- C3 (amended): posts are sorted by date non-increasing with ties in
discovery order (the stable sort keeps any equal-date pair in its unsorted
order); pages and drafts are sorted by permalink non-decreasing under the
`localeCompare` order (modelled as the CLDR root collation), which agrees
with byte-wise comparison exactly on permalinks confined to the lowercase
slug alphabet `[-./0-9a-z]` — not on the mixed-case permalinks reachable
through unslugified page directory names. -/
theorem c3_collections_sorted (cfg : SiteConfig) (files : List SourceFile) :
    List.Sorted postDateGe (processContent cfg files).posts ∧
    List.Sorted permalinkLe (processContent cfg files).pages ∧
    List.Sorted permalinkLe (processContent cfg files).drafts ∧
    (∀ x y : ContentItem, x.date = y.date →
      List.Sublist [x, y] (collectContent cfg files).posts →
      List.Sublist [x, y] (processContent cfg files).posts) ∧
    (∀ x y : ContentItem,
      (∀ c ∈ x.permalink.data, isByteOrderChar c = true) →
      (∀ c ∈ y.permalink.data, isByteOrderChar c = true) →
      (permalinkLe x y ↔ charListLeB x.permalink.data y.permalink.data = true)) := by
  haveI : IsTotal ContentItem postDateGe := ⟨fun a b => Int.le_total _ _⟩
  haveI : IsTrans ContentItem postDateGe :=
    ⟨fun _ _ _ h1 h2 => Int.le_trans h2 h1⟩
  haveI : IsTotal ContentItem permalinkLe :=
    ⟨fun a b => icuLeB_total a.permalink.data b.permalink.data⟩
  haveI : IsTrans ContentItem permalinkLe :=
    ⟨fun a b c h1 h2 => icuLeB_trans a.permalink.data b.permalink.data
      c.permalink.data h1 h2⟩
  refine ⟨?_, ?_, ?_, ?_, ?_⟩
  · exact List.sorted_insertionSort _ _
  · exact List.sorted_insertionSort _ _
  · exact List.sorted_insertionSort _ _
  · intro x y hd hsub
    simp only [processContent]
    refine List.pair_sublist_insertionSort ?_ hsub
    show y.date.getD 0 ≤ x.date.getD 0
    rw [hd]
  · intro x y hx hy
    show icuLeB x.permalink.data y.permalink.data = true ↔ _
    rw [icuLeB_eq_byte x.permalink.data y.permalink.data hx hy]

/-- C3 (witness): a run with two equal-date posts, sorted and keeping the
discovery order of the tied pair; and the collation/byte-wise agreement at
the run's lowercase permalinks. -/
theorem c3_collections_sorted_witness :
    List.Sorted postDateGe (processContent cfgEx filesC3).posts ∧
    List.Sublist [c3x, c3y] (processContent cfgEx filesC3).posts ∧
    (permalinkLe c3x c3y ↔ charListLeB c3x.permalink.data c3y.permalink.data = true) :=
  ⟨(c3_collections_sorted cfgEx filesC3).1,
   (c3_collections_sorted cfgEx filesC3).2.2.2.1 c3x c3y (by decide) (by decide),
   (c3_collections_sorted cfgEx filesC3).2.2.2.2 c3x c3y (by decide) (by decide)⟩

theorem String_eq_mk {s : String} {l : List Char} (h : s.data = l) : s = ⟨l⟩ := by
  cases s
  exact congrArg String.mk h

/-- C2 (counterexample): the code removes every occurrence of the pages-root
directory name, not exactly one: `pages/pages/foo.md` yields `/foo/`, while
removing a single occurrence would yield `/pages/foo/`. -/
theorem c2_counterexample :
    (processContent cfgEx [fileMd "/site/pages/pages/foo.md" {}]).pages.map
        (fun i => i.permalink) = ["/foo/"] ∧
    dirPermalink (removeOneOccurrence "pages".data ["pages".data, "pages".data] ++
      ["foo".data]) = "/pages/foo/" ∧
    ("/foo/" : String) ≠ "/pages/foo/" := by
  decide

/-- C2 (amended): page permalink segment assembly removes every directory
component equal to the pages-root name (a filter, not a single removal),
keeps the rest in order, and appends the slug unless it is `index`; the
permalink is the directory-style URL of that segment list. Stated for
markdown sources with clean directory components. -/
theorem c2_page_segment_assembly (cfg : SiteConfig) (rel : String)
    (fm : FrontMatter)
    (hext : (pathExtnameL rel.data).map Char.toLower = ".md".data)
    (hdirs : ∀ s ∈ (splitSeg (pathDirL rel.data)).filter (· ≠ []),
      ∀ c ∈ s, isPatChar c = true) :
    generatePermalink cfg rel fm .page = dirPermalink
      ((((splitSeg (pathDirL rel.data)).filter (· ≠ [])).filter
          (· ≠ pathBasenameL cfg.paths.pages.data)) ++
        (if permSlugOf rel fm .page = "index".data then []
         else [permSlugOf rel fm .page])) := by
  have hpat := permSegsOf_pat cfg rel fm .page (fun _ => hdirs)
  have hmid := permSegsOf_mid cfg rel fm .page
  have hdata := generatePermalink_md_eq cfg rel fm .page hext hmid hpat
  have hsegs : permSegsOf cfg rel fm .page =
      (((splitSeg (pathDirL rel.data)).filter (· ≠ [])).filter
        (· ≠ pathBasenameL cfg.paths.pages.data)) ++
      (if permSlugOf rel fm .page = "index".data then []
       else [permSlugOf rel fm .page]) := by
    simp only [permSegsOf]
    rw [if_neg (by decide), if_neg (by decide)]
    split
    · rw [List.append_nil]
    · rfl
  rw [hsegs] at hdata
  rw [dirPermalink]
  exact String_eq_mk hdata

/-- C2 (witness): the double-`pages` path instantiation. -/
theorem c2_page_segment_assembly_witness :
    generatePermalink cfgEx "pages/pages/foo.md" {} .page = dirPermalink
      ((((splitSeg (pathDirL ("pages/pages/foo.md" : String).data)).filter
          (· ≠ [])).filter (· ≠ pathBasenameL cfgEx.paths.pages.data)) ++
        (if permSlugOf "pages/pages/foo.md" {} .page = "index".data then []
         else [permSlugOf "pages/pages/foo.md" {} .page])) :=
  c2_page_segment_assembly cfgEx "pages/pages/foo.md" {} (by decide) (by decide)

/-- C7 (counterexample): an empty front-matter slug is set but falsy in JS,
so the code falls back to the filename: `pages/about.md` with `slug: ""`
yields `/about/`, not the `/` that using the slugified override (the empty
string) would produce. -/
theorem c7_counterexample :
    (({ slug := some "" } : FrontMatter).slug = some "") ∧
    slugify "" = "" ∧
    generatePermalink cfgEx "pages/about.md" { slug := some "" } .page =
      "/about/" ∧
    dirPermalink [slugifyL ("" : String).data] = "/" ∧
    ("/about/" : String) ≠ "/" := by
  decide

/-- C7 (amended): when `frontMatter.slug` is set to a non-empty string its
slugified form is the slug and overrides the filename (for a markdown post
the permalink is `/blog/<slugified slug>/` whatever the stem); when the slug
is absent or empty, a post strips one leading `YYYY-MM-DD-` prefix from the
stem before slugifying, and pages and drafts slugify the stem directly.
`posts/2024-01-15-hello-world.md` without an override maps to
`/blog/hello-world/`. -/
theorem c7_slug_derivation (cfg : SiteConfig) (rel : String) (fm : FrontMatter)
    (it : ItemType) :
    (∀ s : String, fm.slug = some s → s ≠ "" →
      permSlugOf rel fm it = slugifyL s.data) ∧
    ((fm.slug = none ∨ fm.slug = some "") → it = .post →
      permSlugOf rel fm it = slugifyL (stripLeadingDate (pathNameL rel.data))) ∧
    ((fm.slug = none ∨ fm.slug = some "") → it ≠ .post →
      permSlugOf rel fm it = slugifyL (pathNameL rel.data)) ∧
    (∀ s : String, fm.slug = some s → s ≠ "" →
      (pathExtnameL rel.data).map Char.toLower = ".md".data →
      generatePermalink cfg rel fm .post =
        dirPermalink ["blog".data, slugifyL s.data]) ∧
    generatePermalink cfgEx "posts/2024-01-15-hello-world.md" {} .post =
      "/blog/hello-world/" := by
  have hslug : ∀ s : String, fm.slug = some s → s ≠ "" →
      ∀ it2 : ItemType, permSlugOf rel fm it2 = slugifyL s.data := by
    intro s hs hne it2
    simp only [permSlugOf]
    split
    · rename_i s2 hs2
      have h2 := hs.symm.trans hs2
      injection h2 with h2
      subst h2
      rw [if_neg hne]
    · rename_i hq
      rw [hs] at hq
      exact absurd hq (by simp)
  refine ⟨fun s hs hne => hslug s hs hne it, ?_, ?_, ?_, by decide⟩
  · intro hs hpost
    subst hpost
    simp only [permSlugOf]
    split
    · rename_i s2 hs2
      rcases hs with hs | hs
      · rw [hs] at hs2
        exact absurd hs2.symm (by simp)
      · rw [hs] at hs2
        injection hs2 with h2
        subst h2
        simp
    · simp
  · intro hs hnp
    simp only [permSlugOf]
    split
    · rename_i s2 hs2
      rcases hs with hs | hs
      · rw [hs] at hs2
        exact absurd hs2.symm (by simp)
      · rw [hs] at hs2
        injection hs2 with h2
        subst h2
        simp [hnp]
    · simp [hnp]
  · intro s hs hne hext
    have hpat := permSegsOf_pat cfg rel fm .post (fun h => by simp at h)
    have hmid := permSegsOf_mid cfg rel fm .post
    have hdata := generatePermalink_md_eq cfg rel fm .post hext hmid hpat
    have hsegs : permSegsOf cfg rel fm .post = ["blog".data, slugifyL s.data] := by
      simp only [permSegsOf]
      rw [if_pos trivial, hslug s hs hne .post]
    rw [hsegs] at hdata
    rw [dirPermalink]
    exact String_eq_mk hdata

/-- C7 (witness): concrete instantiations of each clause. -/
theorem c7_slug_derivation_witness :
    permSlugOf "pages/x.md" fmSlug .page = slugifyL ("custom-slug" : String).data ∧
    permSlugOf "posts/2024-01-15-a.md" {} .post =
      slugifyL (stripLeadingDate (pathNameL ("posts/2024-01-15-a.md" : String).data)) ∧
    permSlugOf "pages/y.md" {} .page =
      slugifyL (pathNameL ("pages/y.md" : String).data) ∧
    generatePermalink cfgEx "posts/anything.md" fmSlug .post =
      dirPermalink ["blog".data, slugifyL ("custom-slug" : String).data] ∧
    generatePermalink cfgEx "posts/2024-01-15-hello-world.md" {} .post =
      "/blog/hello-world/" :=
  ⟨(c7_slug_derivation cfgEx "pages/x.md" fmSlug .page).1 "custom-slug" (by decide)
      (by decide),
   (c7_slug_derivation cfgEx "posts/2024-01-15-a.md" ({} : FrontMatter) .post).2.1
      (Or.inl (by decide)) rfl,
   (c7_slug_derivation cfgEx "pages/y.md" ({} : FrontMatter) .page).2.2.1
      (Or.inl (by decide)) (by decide),
   (c7_slug_derivation cfgEx "posts/anything.md" fmSlug .post).2.2.2.1
      "custom-slug" (by decide) (by decide) (by decide),
   (c7_slug_derivation cfgEx "zz" ({} : FrontMatter) .post).2.2.2.2⟩

theorem String_data_mk (l : List Char) : (String.mk l).data = l := rfl

theorem plainSeg_of_len {l : List Char} (h : 2 < l.length) : plainSeg l = true := by
  simp only [plainSeg, Bool.and_eq_true, decide_eq_true_eq]
  constructor
  · intro he
    subst he
    simp at h
  · intro he
    subst he
    simp at h

theorem foldlNorm_plain : ∀ (segs acc : List (List Char)),
    (∀ s ∈ segs, s ≠ [] ∧ plainSeg s = true) →
    List.foldl
      (fun acc s =>
        if s = [] || s = ['.'] then acc
        else if s = ['.', '.'] then acc.dropLast
        else acc ++ [s]) acc segs = acc ++ segs
  | [], acc, _ => by simp
  | s :: rest, acc, h => by
    obtain ⟨hne, hpl⟩ := h s (by simp)
    simp only [plainSeg, Bool.and_eq_true, decide_eq_true_eq] at hpl
    obtain ⟨hd1, hd2⟩ := hpl
    rw [List.foldl_cons, if_neg (by simp [hne, hd1]), if_neg hd2,
      foldlNorm_plain rest (acc ++ [s]) (fun t ht => h t (by simp [ht]))]
    simp

theorem normalizeSegs_plain {segs : List (List Char)}
    (h : ∀ s ∈ segs, s ≠ [] ∧ plainSeg s = true) :
    normalizeSegs segs = segs := by
  have h2 := foldlNorm_plain segs [] h
  rw [List.nil_append] at h2
  simp only [normalizeSegs]
  exact h2

theorem pathResolveL_plain (orest rel : List Char)
    (h : ∀ s ∈ splitSeg (orest ++ '/' :: rel), s ≠ [] ∧ plainSeg s = true) :
    pathResolveL ('/' :: orest) rel = '/' :: (orest ++ '/' :: rel) := by
  have hslash : Char.ofNat 47 = '/' := by decide
  have h47 : ('/' : Char).toNat = 47 := by decide
  simp only [pathResolveL, hslash]
  have e : ('/' :: orest) ++ '/' :: rel = '/' :: (orest ++ '/' :: rel) := rfl
  rw [e]
  simp only [splitSeg]
  rw [if_pos h47]
  have e2 : normalizeSegs ([] :: splitSeg (orest ++ '/' :: rel)) =
      normalizeSegs (splitSeg (orest ++ '/' :: rel)) := rfl
  rw [e2, normalizeSegs_plain h, intercalateChar_splitSeg]

theorem splitSeg_append_word : ∀ (r w : List Char), (∀ d ∈ w, d.toNat ≠ 47) →
    ∃ ss s, splitSeg r = ss ++ [s] ∧ splitSeg (r ++ w) = ss ++ [s ++ w]
  | [], w, hw => ⟨[], [], rfl, by simp [splitSeg_no_slash hw]⟩
  | c :: r, w, hw => by
    obtain ⟨ss, s, h1, h2⟩ := splitSeg_append_word r w hw
    have e : (c :: r) ++ w = c :: (r ++ w) := rfl
    by_cases h47 : c.toNat = 47
    · refine ⟨[] :: ss, s, ?_, ?_⟩
      · simp only [splitSeg]
        rw [if_pos h47, h1]
        simp
      · rw [e]
        simp only [splitSeg]
        rw [if_pos h47, h2]
        simp
    · cases ss with
      | nil =>
        rw [List.nil_append] at h1 h2
        refine ⟨[], c :: s, ?_, ?_⟩
        · simp only [splitSeg]
          rw [if_neg h47, h1]
          rfl
        · rw [e]
          simp only [splitSeg]
          rw [if_neg h47, h2]
          rfl
      | cons t ts =>
        rw [List.cons_append] at h1 h2
        refine ⟨(c :: t) :: ts, s, ?_, ?_⟩
        · simp only [splitSeg]
          rw [if_neg h47, h1]
          simp
        · rw [e]
          simp only [splitSeg]
          rw [if_neg h47, h2]
          simp

/-- C8: on a clean permalink (leading slash, no dot segments, no empty segment
except a trailing slash) and a canonical absolute output root, the output path
is a function of the permalink alone: a permalink ending in a slash maps to
the output root plus the permalink plus `index.html`; one not ending in a
slash that carries an extension maps to the output root plus the permalink
unchanged; otherwise `.html` is appended. -/
theorem c8_output_path (cfg : SiteConfig) (p : String)
    (hout : canonAbsPath cfg.paths.output = true)
    (hp : cleanPermalink p = true) :
    (p.data.getLast? = some '/' →
      (generateOutputPath cfg p).data =
        cfg.paths.output.data ++ p.data ++ "index.html".data) ∧
    (p.data.getLast? ≠ some '/' → pathExtnameL p.data ≠ [] →
      (generateOutputPath cfg p).data = cfg.paths.output.data ++ p.data) ∧
    (p.data.getLast? ≠ some '/' → pathExtnameL p.data = [] →
      (generateOutputPath cfg p).data =
        cfg.paths.output.data ++ p.data ++ ".html".data) := by
  have hslash : Char.ofNat 47 = '/' := by decide
  obtain ⟨orest, hod, hoall⟩ :
      ∃ orest, cfg.paths.output.data = '/' :: orest ∧
        ∀ s ∈ splitSeg orest, s ≠ [] ∧ plainSeg s = true := by
    cases hodc : cfg.paths.output.data with
    | nil =>
      simp only [canonAbsPath, hodc] at hout
      exact absurd hout (by decide)
    | cons c0 orest =>
      simp only [canonAbsPath, hodc, Bool.and_eq_true, List.all_eq_true,
        decide_eq_true_eq] at hout
      obtain ⟨h470, hall0⟩ := hout
      refine ⟨orest, ?_, ?_⟩
      · rw [eq_slash_of_toNat_47 h470]
      · intro s hs
        obtain ⟨h1, h2⟩ := hall0 s hs
        exact ⟨h1, h2⟩
  cases hpdc : p.data with
  | nil =>
    simp only [cleanPermalink, hpdc] at hp
    exact absurd hp (by decide)
  | cons c rest =>
    simp only [cleanPermalink, hpdc, Bool.and_eq_true, List.all_eq_true,
      decide_eq_true_eq] at hp
    obtain ⟨⟨h47c, hall⟩, hdrop⟩ := hp
    have hc : c = '/' := eq_slash_of_toNat_47 h47c
    subst hc
    refine ⟨?_, ?_, ?_⟩
    · intro ha
      have hidx : ∀ d ∈ "index.html".data, d.toNat ≠ 47 := by decide
      have hplainA : ∀ s ∈ splitSeg (rest ++ "index.html".data),
          s ≠ [] ∧ plainSeg s = true := by
        rcases List.eq_nil_or_concat rest with hre | ⟨r2, ch, hre⟩
        · subst hre
          rw [List.nil_append, splitSeg_no_slash hidx]
          intro s hs
          simp only [List.mem_singleton] at hs
          subst hs
          exact ⟨by decide, by decide⟩
        · rw [List.concat_eq_append] at hre
          have hch : ch = '/' := by
            rw [hre, ← List.cons_append, List.getLast?_concat] at ha
            injection ha
          subst hch
          subst hre
          have hsr : splitSeg (r2 ++ ['/']) = splitSeg r2 ++ [[]] := by
            rw [splitSeg_append_slash r2 []]
            rfl
          have hr2ne : ∀ s ∈ splitSeg r2, s ≠ [] := by
            intro s hs
            apply hdrop
            rw [hsr, List.dropLast_concat]
            exact hs
          have hsplit : splitSeg (r2 ++ ['/'] ++ "index.html".data) =
              splitSeg r2 ++ ["index.html".data] := by
            rw [List.append_assoc, List.singleton_append,
              splitSeg_append_slash r2, splitSeg_no_slash hidx]
          rw [hsplit]
          intro s hs
          rcases List.mem_append.1 hs with h | h
          · refine ⟨hr2ne s h, hall s ?_⟩
            rw [hsr]
            exact List.mem_append_left _ h
          · simp only [List.mem_singleton] at h
            subst h
            exact ⟨by decide, by decide⟩
      simp only [generateOutputPath, hslash, hpdc]
      rw [if_pos ha]
      simp only [List.cons_append, List.head?_cons]
      rw [if_pos trivial]
      simp only [List.tail_cons]
      have hplainAll : ∀ s ∈ splitSeg (orest ++ '/' :: (rest ++ "index.html".data)),
          s ≠ [] ∧ plainSeg s = true := by
        intro s hs
        rw [splitSeg_append_slash] at hs
        rcases List.mem_append.1 hs with h | h
        · exact hoall s h
        · exact hplainA s h
      rw [hod, pathResolveL_plain orest (rest ++ "index.html".data) hplainAll,
        String_data_mk]
      simp
    · intro hb hext
      rcases List.eq_nil_or_concat rest with hre | ⟨r2, ch, hre⟩
      · subst hre
        simp at hb
      · rw [List.concat_eq_append] at hre
        have hch47 : ∀ d ∈ [ch], d.toNat ≠ 47 := by
          intro d hd
          simp only [List.mem_singleton] at hd
          subst hd
          intro h47d
          apply hb
          rw [hre, ← List.cons_append, List.getLast?_concat,
            eq_slash_of_toNat_47 h47d]
        obtain ⟨ss, s0, hs1, hs2⟩ := splitSeg_append_word r2 [ch] hch47
        have hsr : splitSeg rest = ss ++ [s0 ++ [ch]] := by
          rw [hre]
          exact hs2
        have hplainB : ∀ s ∈ splitSeg rest, s ≠ [] ∧ plainSeg s = true := by
          intro s hs
          refine ⟨?_, hall s hs⟩
          rw [hsr] at hs
          rcases List.mem_append.1 hs with h | h
          · apply hdrop
            rw [hsr, List.dropLast_concat]
            exact h
          · simp only [List.mem_singleton] at h
            subst h
            simp
        simp only [generateOutputPath, hslash, hpdc]
        rw [if_neg hb, if_neg hext]
        simp only [List.head?_cons]
        rw [if_pos trivial]
        simp only [List.tail_cons]
        have hplainAll : ∀ s ∈ splitSeg (orest ++ '/' :: rest),
            s ≠ [] ∧ plainSeg s = true := by
          intro s hs
          rw [splitSeg_append_slash] at hs
          rcases List.mem_append.1 hs with h | h
          · exact hoall s h
          · exact hplainB s h
        rw [hod, pathResolveL_plain orest rest hplainAll]
        simp
    · intro hb hext
      rcases List.eq_nil_or_concat rest with hre | ⟨r2, ch, hre⟩
      · subst hre
        simp at hb
      · rw [List.concat_eq_append] at hre
        have hhtml : ∀ d ∈ ".html".data, d.toNat ≠ 47 := by decide
        obtain ⟨ss, s0, hs1, hs2⟩ := splitSeg_append_word rest ".html".data hhtml
        have hplainC : ∀ s ∈ splitSeg (rest ++ ".html".data),
            s ≠ [] ∧ plainSeg s = true := by
          intro s hs
          rw [hs2] at hs
          rcases List.mem_append.1 hs with h | h
          · refine ⟨?_, ?_⟩
            · apply hdrop
              rw [hs1, List.dropLast_concat]
              exact h
            · apply hall
              rw [hs1]
              exact List.mem_append_left _ h
          · simp only [List.mem_singleton] at h
            subst h
            refine ⟨by simp, plainSeg_of_len ?_⟩
            simp
        simp only [generateOutputPath, hslash, hpdc]
        rw [if_neg hb, if_pos hext]
        simp only [List.cons_append, List.head?_cons]
        rw [if_pos trivial]
        simp only [List.tail_cons]
        have hplainAll : ∀ s ∈ splitSeg (orest ++ '/' :: (rest ++ ".html".data)),
            s ≠ [] ∧ plainSeg s = true := by
          intro s hs
          rw [splitSeg_append_slash] at hs
          rcases List.mem_append.1 hs with h | h
          · exact hoall s h
          · exact hplainC s h
        rw [hod, pathResolveL_plain orest (rest ++ ".html".data) hplainAll,
          String_data_mk]
        simp

/-- C8 (witness): the three clauses at concrete permalinks over the example
output root. -/
theorem c8_output_path_witness :
    (generateOutputPath cfgEx "/blog/hello/").data =
      cfgEx.paths.output.data ++ ("/blog/hello/" : String).data ++
        "index.html".data ∧
    (generateOutputPath cfgEx "/a.txt").data =
      cfgEx.paths.output.data ++ ("/a.txt" : String).data ∧
    (generateOutputPath cfgEx "/about").data =
      cfgEx.paths.output.data ++ ("/about" : String).data ++ ".html".data :=
  ⟨(c8_output_path cfgEx "/blog/hello/" (by decide) (by decide)).1 (by decide),
   (c8_output_path cfgEx "/a.txt" (by decide) (by decide)).2.1 (by decide)
     (by decide),
   (c8_output_path cfgEx "/about" (by decide) (by decide)).2.2 (by decide)
     (by decide)⟩

end HcgBlog
